import Mathlib

/-!
# Extent utilities of `payload_generator/extent_utils.h`

A shallow embedding of the extent arithmetic of the update engine's payload
generator, followed by the properties established about it.

Conventions of the embedding.

* `uint64_t` and `size_t` (an LP64 target, so 64 bits wide) are natural numbers
  below `2 ^ 64`; every machine operation that can wrap carries its `% 2 ^ 64`.
* An `Extent` is the protobuf message with its two `uint64` fields; the bounds
  of the fields are part of the structure, so a `List Extent` ranges over
  exactly the lists the C++ code can receive.
* `std::vector<T>` and `RepeatedPtrField<T>` are `List T`.
* A `std::vector` cannot grow without bound: `resize` and `push_back` throw once
  the vector would hold more elements than it can take.  `ExpandExtents.checked`
  is the call with these exceptions, for a vector that can take `capacity`
  elements; `ExpandExtents` is the vector that the call returns when none is
  thrown.
* The constant `kSparseHole` is declared in `payload_constants.h`, outside the
  translated sources.  It is a parameter of every definition that reads it.
* A failed `CHECK` and an access outside a container are `none`.
* `AppendBlockToExtents`, `NormalizeExtents` and `ExtentsSublist` are declared in
  the header and defined in a file outside the translated sources.  They are
  modelled from the specification, as the comment of each of them says.
-/

namespace chromeos_update_engine

/-! ## Data model -/

/-- The protobuf message `Extent`: two `uint64` fields. -/
structure Extent where
  start_block : Nat
  num_blocks : Nat
  start_lt : start_block < 2 ^ 64
  num_lt : num_blocks < 2 ^ 64
  deriving DecidableEq

/-- Builds an extent from two numbers, truncated to 64 bits as the protobuf
setters `set_start_block` and `set_num_blocks` do with their `uint64`
arguments. -/
def mkExtent (start num : Nat) : Extent :=
  ⟨start % 2 ^ 64, num % 2 ^ 64, Nat.mod_lt _ (by decide), Nat.mod_lt _ (by decide)⟩

/-- The value of `std::numeric_limits<size_t>::max()` on an LP64 target. -/
def SIZE_MAX : Nat := 2 ^ 64 - 1

/-- The sum of `num_blocks` over a list of extents, as a mathematical number
(no wrap-around). -/
def totalBlocks (extents : List Extent) : Nat :=
  (extents.map Extent.num_blocks).sum

/-! ## `ExtentLess` -/

/-- The comparator `ExtentLess::operator()`. -/
def ExtentLess (x y : Extent) : Bool :=
  if x.start_block = y.start_block then
    decide (x.num_blocks < y.num_blocks)
  else
    decide (x.start_block < y.start_block)

/-! ## `ExpandExtents` -/

/-- The call `ret.resize(n, v)` of `std::vector` when it returns: truncation when
`n` is at most the current size, padding with copies of `v` otherwise.  The
exception of a call that cannot grow the vector is in `vector_resize_checked`. -/
def vector_resize (ret : List Nat) (n v : Nat) : List Nat :=
  if n ≤ ret.length then ret.take n else ret ++ List.replicate (n - ret.length) v

/-- The inner `for` loop of `ExpandExtents`, entered with the loop variable at
`block`: the bound `start_block + num_blocks` is a `uint64` sum, evaluated at
every test, and `block++` is a `uint64` increment. -/
def ExpandExtents.loop (extent : Extent) (block : Nat) (ret : List Nat) : List Nat :=
  if block < (extent.start_block + extent.num_blocks) % 2 ^ 64 then
    ExpandExtents.loop extent ((block + 1) % 2 ^ 64) (ret ++ [block])
  else
    ret
termination_by (extent.start_block + extent.num_blocks) % 2 ^ 64 - block
decreasing_by
  have := Nat.mod_lt (extent.start_block + extent.num_blocks) (show 0 < 2 ^ 64 by decide)
  omega

/-- The body of the outer loop of `ExpandExtents` for one extent.  The new size
handed to `resize` is the `size_t` sum `ret.size() + extent.num_blocks()`. -/
def ExpandExtents.body (kSparseHole : Nat) (ret : List Nat) (extent : Extent) : List Nat :=
  if extent.start_block = kSparseHole then
    vector_resize ret ((ret.length + extent.num_blocks) % 2 ^ 64) kSparseHole
  else
    ExpandExtents.loop extent extent.start_block ret

/-- The function template `ExpandExtents`: the vector it returns when no `resize`
and no `push_back` throws (see `ExpandExtents.checked` for the exceptions). -/
def ExpandExtents (kSparseHole : Nat) (extents : List Extent) : List Nat :=
  extents.foldl (ExpandExtents.body kSparseHole) []

/-- The call `ret.push_back(v)` on a vector that can take at most `capacity`
elements (`max_size()`, or less when the allocator has less memory to give);
`none` is the exception `std::length_error` or `std::bad_alloc` that the call
throws when the vector cannot grow. -/
def vector_push_back_checked (capacity : Nat) (ret : List Nat) (v : Nat) :
    Option (List Nat) :=
  if ret.length < capacity then some (ret ++ [v]) else none

/-- The call `ret.resize(n, v)` on a vector that can take at most `capacity`
elements: a size up to the current one truncates and never throws, a larger
size up to `capacity` pads, and a size beyond `capacity` throws
`std::length_error` or `std::bad_alloc`, which is `none`. -/
def vector_resize_checked (capacity : Nat) (ret : List Nat) (n v : Nat) :
    Option (List Nat) :=
  if n ≤ ret.length then
    some (ret.take n)
  else if n ≤ capacity then
    some (ret ++ List.replicate (n - ret.length) v)
  else
    none

/-- The inner `for` loop of `ExpandExtents` with the exception of `push_back`. -/
def ExpandExtents.loop_checked (capacity : Nat) (extent : Extent) (block : Nat)
    (ret : List Nat) : Option (List Nat) :=
  if block < (extent.start_block + extent.num_blocks) % 2 ^ 64 then
    match vector_push_back_checked capacity ret block with
    | none => none
    | some grown => ExpandExtents.loop_checked capacity extent ((block + 1) % 2 ^ 64) grown
  else
    some ret
termination_by (extent.start_block + extent.num_blocks) % 2 ^ 64 - block
decreasing_by
  have := Nat.mod_lt (extent.start_block + extent.num_blocks) (show 0 < 2 ^ 64 by decide)
  omega

/-- The body of the outer loop of `ExpandExtents` with the exceptions of
`resize` and `push_back`. -/
def ExpandExtents.body_checked (capacity kSparseHole : Nat) (ret : List Nat)
    (extent : Extent) : Option (List Nat) :=
  if extent.start_block = kSparseHole then
    vector_resize_checked capacity ret ((ret.length + extent.num_blocks) % 2 ^ 64) kSparseHole
  else
    ExpandExtents.loop_checked capacity extent extent.start_block ret

/-- The outer loop of `ExpandExtents` over the extents left, entered with the
vector at `ret`; an exception thrown for one extent ends the call. -/
def ExpandExtents.checked_from (capacity kSparseHole : Nat) :
    List Extent → List Nat → Option (List Nat)
  | [], ret => some ret
  | extent :: rest, ret =>
    match ExpandExtents.body_checked capacity kSparseHole ret extent with
    | none => none
    | some grown => ExpandExtents.checked_from capacity kSparseHole rest grown

/-- The function template `ExpandExtents` with the exceptions of `std::vector`:
the vector returned, or `none` when `resize` or `push_back` throws because the
vector would have to hold more than `capacity` elements.  Whenever it returns
a vector, that vector is `ExpandExtents kSparseHole extents`. -/
def ExpandExtents.checked (capacity kSparseHole : Nat) (extents : List Extent) :
    Option (List Nat) :=
  ExpandExtents.checked_from capacity kSparseHole extents []

/-- What one pass of the outer loop of `ExpandExtents` adds to the vector when
the size handed to `resize` does not wrap: the sentinels of a hole, or the
blocks from `start_block` up to the wrapped bound. -/
def ExpandExtents.part (kSparseHole : Nat) (extent : Extent) : List Nat :=
  if extent.start_block = kSparseHole then
    List.replicate extent.num_blocks kSparseHole
  else
    List.range' extent.start_block
      ((extent.start_block + extent.num_blocks) % 2 ^ 64 - extent.start_block)

/-- The expansion of one extent in the words of the specification: `num_blocks`
copies of the sentinel for a hole extent, the ascending run
`start_block, ..., start_block + num_blocks - 1` for a normal one. -/
def specExpandExtent (kSparseHole : Nat) (extent : Extent) : List Nat :=
  if extent.start_block = kSparseHole then
    List.replicate extent.num_blocks kSparseHole
  else
    List.range' extent.start_block extent.num_blocks

/-- The expansion of an extent list in the words of the specification: the
concatenation of the expansions of its extents, in order. -/
def specExpand (kSparseHole : Nat) (extents : List Extent) : List Nat :=
  extents.flatMap (specExpandExtent kSparseHole)

/-! ## `BlockIterator` -/

/-- The mutable fields of `BlockIterator`; the referenced list `extents_` is
passed to each operation. -/
structure BlockIterator where
  cur_extent_ : Int
  block_offset_ : Nat
  deriving DecidableEq

namespace BlockIterator

/-- The state left by the constructor: both fields hold their default `0`. -/
def init : BlockIterator := ⟨0, 0⟩

/-- The element access `extents_[i]` with an `int` index; an index outside the
container has no defined result. -/
def at? (extents_ : List Extent) (i : Int) : Option Extent :=
  if i < 0 then none else extents_[i.toNat]?

/-- The member `is_end()`. -/
def is_end (extents_ : List Extent) (it : BlockIterator) : Bool :=
  decide (it.cur_extent_ ≥ (extents_.length : Int))

/-- The member `operator*`. -/
def deref (extents_ : List Extent) (it : BlockIterator) : Option Nat :=
  (at? extents_ it.cur_extent_).map fun e => (e.start_block + it.block_offset_) % 2 ^ 64

/-- The member `operator++`; `none` is the abort of `CHECK_LT` (or the
undefined access at a negative index). -/
def inc (extents_ : List Extent) (it : BlockIterator) : Option BlockIterator :=
  if it.cur_extent_ < (extents_.length : Int) then
    match at? extents_ it.cur_extent_ with
    | none => none
    | some e =>
      let block_offset_ := (it.block_offset_ + 1) % 2 ^ 64
      if block_offset_ ≥ e.num_blocks then
        some ⟨it.cur_extent_ + 1, 0⟩
      else
        some ⟨it.cur_extent_, block_offset_⟩
  else
    none

/-- The measure that decreases along `operator++`: extents left, then blocks
left in the current extent. -/
def remaining (extents_ : List Extent) (it : BlockIterator) : Nat × Nat :=
  (((extents_.length : Int) - it.cur_extent_).toNat,
    match at? extents_ it.cur_extent_ with
    | none => 0
    | some e =>
      if it.block_offset_ % 2 ^ 64 < e.num_blocks then
        e.num_blocks - it.block_offset_ % 2 ^ 64
      else
        e.num_blocks + 2 ^ 64 - it.block_offset_ % 2 ^ 64)

/-- The loop `while (!it.is_end()) { block = *it; ++it; }` started at `it`: the
blocks read, in order; `none` if a `CHECK` aborts the loop. -/
def blocks (extents_ : List Extent) (it : BlockIterator) : Option (List Nat) :=
  if is_end extents_ it then
    some []
  else
    match deref extents_ it, hinc : inc extents_ it with
    | some block, some next => (blocks extents_ next).map (block :: ·)
    | _, _ => none
termination_by remaining extents_ it
decreasing_by
  have h := hinc
  unfold inc at h
  split at h
  · rename_i hlt
    cases hat : at? extents_ it.cur_extent_ with
    | none => simp [hat] at h
    | some e =>
      simp only [hat] at h
      have hn := e.num_lt
      split at h
      · injection h with h
        subst h
        apply Prod.Lex.left
        simp only
        omega
      · injection h with h
        subst h
        rename_i hge
        simp only [remaining, hat]
        apply Prod.Lex.right
        have hm : (it.block_offset_ + 1) % 2 ^ 64 % 2 ^ 64
            = (it.block_offset_ + 1) % 2 ^ 64 := Nat.mod_mod _ _
        rw [hm]
        have hlt2 : (it.block_offset_ + 1) % 2 ^ 64 < e.num_blocks := by omega
        rw [if_pos hlt2]
        split <;> omega
  · simp at h

/-- The blocks the iterator reads while it stands in one extent: it reads at
offset `0` before the first test of `block_offset_ >= num_blocks`, so it reads
once even in an extent of length `0`, and every read is the `uint64` sum
`start_block + block_offset_`. -/
def extentReads (e : Extent) : List Nat :=
  (List.range' 0 (max 1 e.num_blocks)).map fun j => (e.start_block + j) % 2 ^ 64

/-- The states of a `BlockIterator` over `extents_` that a caller can reach:
the state left by the constructor, and every state that a call of `operator++`
on a reachable state returns. -/
inductive Reachable (extents_ : List Extent) : BlockIterator → Prop
  | init : Reachable extents_ BlockIterator.init
  | step {it next : BlockIterator} :
      Reachable extents_ it → inc extents_ it = some next → Reachable extents_ next

/-- The state after `n` calls of `operator++` from `it`; `none` if one of them
aborts. -/
def advance (extents_ : List Extent) : Nat → BlockIterator → Option BlockIterator
  | 0, it => some it
  | n + 1, it => (inc extents_ it).bind (advance extents_ n)

/-- The number of blocks that lie before the place the iterator points at: the
blocks of the extents before `cur_extent_`, plus `block_offset_`. -/
def position (extents_ : List Extent) (it : BlockIterator) : Nat :=
  totalBlocks (extents_.take it.cur_extent_.toNat) + it.block_offset_

/-- The invariant of the iterator over a list without empty extents:
`cur_extent_` lies between `0` and the list length, `block_offset_` lies inside
the current extent, and is `0` at the end. -/
def Inv (extents_ : List Extent) (it : BlockIterator) : Prop :=
  0 ≤ it.cur_extent_ ∧ it.cur_extent_ ≤ (extents_.length : Int) ∧
    (it.cur_extent_ < (extents_.length : Int) →
      ∃ e, at? extents_ it.cur_extent_ = some e ∧ it.block_offset_ < e.num_blocks) ∧
    (it.cur_extent_ = (extents_.length : Int) → it.block_offset_ = 0)

end BlockIterator

/-! ## `GetNthBlock` -/

/-- The range-`for` loop of `GetNthBlock`, entered with the accumulator at
`cur_block_count`; the subtraction and both additions are 64-bit. -/
def GetNthBlock.loop (n : Nat) : List Extent → Nat → Nat
  | [], _ => SIZE_MAX
  | extent :: rest, cur_block_count =>
    if (n + (2 ^ 64 - cur_block_count % 2 ^ 64)) % 2 ^ 64 < extent.num_blocks then
      (extent.start_block + (n + (2 ^ 64 - cur_block_count % 2 ^ 64)) % 2 ^ 64) % 2 ^ 64
    else
      GetNthBlock.loop n rest ((cur_block_count + extent.num_blocks) % 2 ^ 64)

/-- The function template `GetNthBlock`. -/
def GetNthBlock (extents : List Extent) (n : Nat) : Nat :=
  GetNthBlock.loop n extents 0

/-- The loop of `GetNthBlock` with a record of its iterations: beside the
result, the value of `cur_block_count` at the start of each iteration that is
executed, in order. -/
def GetNthBlock.loopTraced (n : Nat) : List Extent → Nat → Nat × List Nat
  | [], _ => (SIZE_MAX, [])
  | extent :: rest, cur_block_count =>
    if (n + (2 ^ 64 - cur_block_count % 2 ^ 64)) % 2 ^ 64 < extent.num_blocks then
      ((extent.start_block + (n + (2 ^ 64 - cur_block_count % 2 ^ 64)) % 2 ^ 64) % 2 ^ 64,
        [cur_block_count])
    else
      ((GetNthBlock.loopTraced n rest ((cur_block_count + extent.num_blocks) % 2 ^ 64)).1,
        cur_block_count ::
          (GetNthBlock.loopTraced n rest ((cur_block_count + extent.num_blocks) % 2 ^ 64)).2)

/-! ## `ExtentContains` -/

/-- The overload `ExtentContains(const Extent&, size_t)`. -/
def ExtentContains (extent : Extent) (block : Nat) : Bool :=
  decide (extent.start_block ≤ block) &&
    decide (block < (extent.start_block + extent.num_blocks) % 2 ^ 64)

/-- The overload `ExtentContains(const Extent& big, const Extent& small)`. -/
def ExtentContainsExtent (big small : Extent) : Bool :=
  decide (big.start_block ≤ small.start_block) &&
    decide ((small.start_block + small.num_blocks) % 2 ^ 64 ≤
      (big.start_block + big.num_blocks) % 2 ^ 64)

/-! ## `Dedup` -/

/-- The call `std::sort(first, last)`, by its contract in the C++ standard
library: the elements in ascending order. -/
def std_sort {α : Type} [LinearOrder α] (container : List α) : List α :=
  container.insertionSort (· ≤ ·)

/-- The scan of `std::unique` after its first element: an element is kept when
it differs from the last one kept. -/
def std_unique.go {α : Type} [DecidableEq α] (last : α) : List α → List α
  | [] => []
  | x :: rest => if last = x then std_unique.go last rest else x :: std_unique.go x rest

/-- The call `container->erase(std::unique(begin, end), end)`: what is left of
the container once every run of equal neighbours is reduced to its first
element. -/
def std_unique {α : Type} [DecidableEq α] : List α → List α
  | [] => []
  | a :: rest => a :: std_unique.go a rest

/-- The function template `Dedup`. -/
def Dedup {α : Type} [LinearOrder α] (container : List α) : List α :=
  std_unique (std_sort container)

/-! ## Functions that the header declares and does not define -/

/-- Modelled from the spec: the body of `AppendBlockToExtents`, of which the
header holds the declaration only.  By section 4.1 a block equal to
`last.start_block + last.num_blocks` extends the last extent by one; any other
block starts a new extent of length 1, and so does any block when the list is
empty. -/
def AppendBlockToExtents (extents : List Extent) (block : Nat) : List Extent :=
  match extents.getLast? with
  | none => [mkExtent block 1]
  | some last =>
    if block = last.start_block + last.num_blocks then
      extents.dropLast ++ [mkExtent last.start_block (last.num_blocks + 1)]
    else
      extents ++ [mkExtent block 1]

/-- Modelled from the spec: the scan of `NormalizeExtents`, of which the header
holds the declaration only, with `current` the extent being merged.  By
section 4.3, when the next extent starts at or before the end
`start_block + num_blocks` of the current merged extent, the `num_blocks` of the
current extent is extended to cover it; otherwise the current extent is
committed and the next one starts a new one. -/
def NormalizeExtents.scan (current : Extent) : List Extent → List Extent
  | [] => [current]
  | next :: rest =>
    if next.start_block ≤ current.start_block + current.num_blocks then
      NormalizeExtents.scan
        (mkExtent current.start_block
          (max (current.start_block + current.num_blocks)
            (next.start_block + next.num_blocks) - current.start_block))
        rest
    else
      current :: NormalizeExtents.scan next rest

/-- Modelled from the spec: the function `NormalizeExtents`, of which the header
holds the declaration only; the scan of section 4.3 started at the first
extent. -/
def NormalizeExtents : List Extent → List Extent
  | [] => []
  | first :: rest => NormalizeExtents.scan first rest

/-- Modelled from the spec: the walk of `ExtentsSublist`, of which the header
holds the declaration only, with `scanned` the running block count and
`emitted` the number of blocks emitted so far.  By section 4.4 the walk stops
once `block_count` blocks are emitted; an extent that ends at or before
`block_offset` is skipped, as is an empty one; any other extent is emitted,
trimmed to start at its interior offset `block_offset - scanned` and to hold
no more than the blocks still wanted. -/
def ExtentsSublist.walk (block_offset block_count : Nat) :
    List Extent → Nat → Nat → List Extent
  | [], _, _ => []
  | extent :: rest, scanned, emitted =>
    if block_count ≤ emitted then
      []
    else if extent.num_blocks ≤ block_offset - scanned then
      ExtentsSublist.walk block_offset block_count rest (scanned + extent.num_blocks) emitted
    else
      mkExtent (extent.start_block + (block_offset - scanned))
          (min (extent.num_blocks - (block_offset - scanned)) (block_count - emitted)) ::
        ExtentsSublist.walk block_offset block_count rest (scanned + extent.num_blocks)
          (emitted + min (extent.num_blocks - (block_offset - scanned)) (block_count - emitted))

/-- Modelled from the spec: the function `ExtentsSublist`, of which the header
holds the declaration only; the walk of section 4.4 started with nothing
scanned and nothing emitted. -/
def ExtentsSublist (extents : List Extent) (block_offset block_count : Nat) : List Extent :=
  ExtentsSublist.walk block_offset block_count extents 0 0

/-! ## Properties of `ExtentLess` -/

/-- C9: `ExtentLess(x, y)` is true exactly when `(x.start_block, x.num_blocks)`
is lexicographically smaller than `(y.start_block, y.num_blocks)`. -/
theorem ExtentLess_iff_lex (x y : Extent) :
    ExtentLess x y = true ↔
      (x.start_block < y.start_block ∨
        (x.start_block = y.start_block ∧ x.num_blocks < y.num_blocks)) := by
  unfold ExtentLess
  split
  · rename_i heq
    simp only [decide_eq_true_eq]
    omega
  · rename_i hne
    simp only [decide_eq_true_eq]
    omega

/-! ## Closed forms of `ExpandExtents` -/

theorem ExpandExtents.loop_eq (e : Extent) (d : Nat) :
    ∀ (block : Nat) (ret : List Nat),
      (e.start_block + e.num_blocks) % 2 ^ 64 - block = d →
      ExpandExtents.loop e block ret = ret ++ List.range' block d := by
  induction d with
  | zero =>
    intro block ret h
    rw [ExpandExtents.loop, if_neg (by omega)]
    simp
  | succ d ih =>
    intro block ret h
    have hE := Nat.mod_lt (e.start_block + e.num_blocks) (show 0 < 2 ^ 64 by decide)
    have hb : (block + 1) % 2 ^ 64 = block + 1 := Nat.mod_eq_of_lt (by omega)
    rw [ExpandExtents.loop, if_pos (by omega), hb, ih (block + 1) (ret ++ [block]) (by omega),
      List.range'_succ]
    simp

/-- What one pass of the outer loop appends for an extent that is not a hole:
the blocks from `start_block` up to the wrapped bound. -/
theorem ExpandExtents.body_of_ne (k : Nat) (ret : List Nat) (e : Extent)
    (hne : e.start_block ≠ k) :
    ExpandExtents.body k ret e =
      ret ++ List.range' e.start_block
        ((e.start_block + e.num_blocks) % 2 ^ 64 - e.start_block) := by
  rw [ExpandExtents.body, if_neg hne]
  exact ExpandExtents.loop_eq e _ _ _ rfl

theorem ExpandExtents.body_eq_spec (k : Nat) (ret : List Nat) (e : Extent)
    (hne : e.start_block ≠ k → e.start_block + e.num_blocks ≤ 2 ^ 64 - 1)
    (hhole : e.start_block = k → ret.length + e.num_blocks ≤ 2 ^ 64 - 1) :
    ExpandExtents.body k ret e = ret ++ specExpandExtent k e := by
  by_cases h : e.start_block = k
  · have hlen := hhole h
    have hmod : (ret.length + e.num_blocks) % 2 ^ 64 = ret.length + e.num_blocks :=
      Nat.mod_eq_of_lt (by omega)
    rw [ExpandExtents.body, if_pos h, specExpandExtent, if_pos h, hmod, vector_resize]
    by_cases h0 : e.num_blocks = 0
    · simp [h0]
    · rw [if_neg (by omega)]
      congr 2
      omega
  · have hsum := hne h
    have hmod : (e.start_block + e.num_blocks) % 2 ^ 64 = e.start_block + e.num_blocks :=
      Nat.mod_eq_of_lt (by omega)
    rw [ExpandExtents.body_of_ne k ret e h, specExpandExtent, if_neg h, hmod]
    congr 2
    omega

theorem length_specExpandExtent (k : Nat) (e : Extent) :
    (specExpandExtent k e).length = e.num_blocks := by
  unfold specExpandExtent
  split <;> simp

theorem length_specExpand (k : Nat) (L : List Extent) :
    (specExpand k L).length = totalBlocks L := by
  induction L with
  | nil => rfl
  | cons e L ih =>
    have := length_specExpandExtent k e
    simp only [specExpand, totalBlocks, List.flatMap_cons, List.length_append, List.map_cons,
      List.sum_cons] at ih ⊢
    omega

/-- Without hole extents no `resize` is executed and no bound on the total is
needed. -/
theorem ExpandExtents.foldl_eq_spec_of_no_hole (k : Nat) (L : List Extent) :
    ∀ ret : List Nat,
      (∀ e ∈ L, e.start_block ≠ k ∧ e.start_block + e.num_blocks ≤ 2 ^ 64 - 1) →
      L.foldl (ExpandExtents.body k) ret = ret ++ specExpand k L := by
  induction L with
  | nil => intro ret _; simp [specExpand]
  | cons e L ih =>
    intro ret h
    have he := h e (List.mem_cons_self _ _)
    have hbody := ExpandExtents.body_eq_spec k ret e (fun _ => he.2)
      (fun hk => absurd hk he.1)
    rw [List.foldl_cons, hbody, ih _ (fun x hx => h x (List.mem_cons_of_mem _ hx))]
    simp [specExpand]

/-! ## Closed form of the `BlockIterator` loop -/

namespace BlockIterator

theorem at?_natCast (L : List Extent) (i : Nat) : at? L (i : Int) = L[i]? := by
  simp [at?]

theorem blocks_step (L : List Extent) (i j : Nat) (e : Extent) (he : L[i]? = some e) :
    blocks L ⟨(i : Int), j⟩ =
      (blocks L (if (j + 1) % 2 ^ 64 ≥ e.num_blocks then ⟨(i : Int) + 1, 0⟩
        else ⟨(i : Int), (j + 1) % 2 ^ 64⟩)).map
        ((e.start_block + j) % 2 ^ 64 :: ·) := by
  have hi : i < L.length := by
    rcases Nat.lt_or_ge i L.length with h | h
    · exact h
    · rw [List.getElem?_eq_none h] at he
      cases he
  have hend : is_end L ⟨(i : Int), j⟩ = false := by
    simp [is_end, hi]
  have hderef : deref L ⟨(i : Int), j⟩ = some ((e.start_block + j) % 2 ^ 64) := by
    simp [deref, at?_natCast, he]
  rw [blocks]
  have hincv : inc L ⟨(i : Int), j⟩ =
      some (if (j + 1) % 2 ^ 64 ≥ e.num_blocks then ⟨(i : Int) + 1, 0⟩
        else ⟨(i : Int), (j + 1) % 2 ^ 64⟩) := by
    simp only [inc, at?_natCast, he, Nat.cast_lt, hi, if_true]
    split <;> rfl
  simp only [hend, hderef, Bool.false_eq_true, if_false]
  split
  · rename_i block next h1 h2
    rw [hincv] at h2
    injection h1 with h1
    injection h2 with h2
    rw [← h1, ← h2]
  · rename_i hno
    exact (hno _ _ rfl hincv).elim

theorem blocks_within (L : List Extent) (i : Nat) (e : Extent) (he : L[i]? = some e)
    (d : Nat) :
    ∀ j : Nat, j + (d + 1) = max 1 e.num_blocks →
      blocks L ⟨(i : Int), j⟩ =
        (blocks L ⟨(i : Int) + 1, 0⟩).map fun r =>
          (List.range' j (d + 1)).map (fun q => (e.start_block + q) % 2 ^ 64) ++ r := by
  have hn := e.num_lt
  induction d with
  | zero =>
    intro j hj
    have hm : (j + 1) % 2 ^ 64 = j + 1 := Nat.mod_eq_of_lt (by omega)
    rw [blocks_step L i j e he, hm, if_pos (by omega)]
    rfl
  | succ d ih =>
    intro j hj
    have hm : (j + 1) % 2 ^ 64 = j + 1 := Nat.mod_eq_of_lt (by omega)
    rw [blocks_step L i j e he, hm, if_neg (by omega), ih (j + 1) (by omega), Option.map_map]
    congr 1

theorem blocks_extent (L : List Extent) (i : Nat) (e : Extent) (he : L[i]? = some e) :
    blocks L ⟨(i : Int), 0⟩ = (blocks L ⟨(i : Int) + 1, 0⟩).map (extentReads e ++ ·) := by
  have h := blocks_within L i e he (max 1 e.num_blocks - 1) 0 (by omega)
  have hd : max 1 e.num_blocks - 1 + 1 = max 1 e.num_blocks := by omega
  rw [h, hd, extentReads]

theorem blocks_from (L : List Extent) (rest : List Extent) :
    ∀ i : Nat, L.drop i = rest →
      blocks L ⟨(i : Int), 0⟩ = some (rest.flatMap extentReads) := by
  induction rest with
  | nil =>
    intro i hdrop
    have hi : L.length ≤ i := List.drop_eq_nil_iff.mp hdrop
    rw [blocks]
    simp [is_end, hi]
  | cons e rest ih =>
    intro i hdrop
    have hi : i < L.length := by
      rcases Nat.lt_or_ge i L.length with h | h
      · exact h
      · rw [List.drop_eq_nil_of_le h] at hdrop
        cases hdrop
    have he : L[i]? = some e := by
      rw [List.getElem?_eq_getElem hi, ← List.head_drop (by simp [hdrop]) ]
      simp [hdrop]
    have hrest : L.drop (i + 1) = rest := by
      rw [← List.drop_drop 1 i L, hdrop]
      rfl
    have hnext := ih (i + 1) hrest
    rw [blocks_extent L i e he]
    simp only [Nat.cast_add, Nat.cast_one] at hnext
    rw [hnext]
    simp

/-- Run from the constructor state the loop reads, extent by extent, the
blocks of `extentReads`, and ends without a failed `CHECK`. -/
theorem blocks_init (L : List Extent) :
    blocks L init = some (L.flatMap extentReads) :=
  blocks_from L L 0 rfl

end BlockIterator

theorem extentReads_eq_spec (k : Nat) (e : Extent) (hnum : 1 ≤ e.num_blocks)
    (hne : e.start_block ≠ k) (hsum : e.start_block + e.num_blocks ≤ 2 ^ 64 - 1) :
    BlockIterator.extentReads e = specExpandExtent k e := by
  rw [BlockIterator.extentReads, specExpandExtent, if_neg hne, Nat.max_eq_right hnum]
  apply List.ext_getElem
  · simp
  · intro n h1 h2
    simp only [List.length_map, List.length_range'] at h1
    simp only [List.getElem_map, List.getElem_range', Nat.one_mul, Nat.zero_add]
    exact Nat.mod_eq_of_lt (by omega)

/-! ## `BlockIterator` against `ExpandExtents` -/

/-- C1, as amended: for every extent list in which each extent has
`num_blocks >= 1`, is not a sparse hole and satisfies
`start_block + num_blocks <= 2^64 - 1`, the loop that reads `operator*` and then
applies `operator++` while `is_end()` is false, started on a fresh
`BlockIterator`, ends without a failed `CHECK` and reads exactly
`ExpandExtents(L)`. -/
theorem BlockIterator_blocks_eq_ExpandExtents (k : Nat) (L : List Extent)
    (h : ∀ e ∈ L, 1 ≤ e.num_blocks ∧ e.start_block ≠ k ∧
      e.start_block + e.num_blocks ≤ 2 ^ 64 - 1) :
    BlockIterator.blocks L BlockIterator.init = some (ExpandExtents k L) := by
  have hexp := ExpandExtents.foldl_eq_spec_of_no_hole k L []
    (fun e he => ⟨(h e he).2.1, (h e he).2.2⟩)
  rw [BlockIterator.blocks_init, ExpandExtents, hexp, List.nil_append, specExpand]
  congr 1
  apply List.flatMap_congr
  intro e he
  exact extentReads_eq_spec k e (h e he).1 (h e he).2.1 (h e he).2.2

/-- Witness of C1 as amended, at the list `[(1,2),(3,5),(10,2)]` with the
sentinel `2^64 - 1`. -/
theorem BlockIterator_blocks_eq_ExpandExtents_witness :
    BlockIterator.blocks [mkExtent 1 2, mkExtent 3 5, mkExtent 10 2] BlockIterator.init =
      some (ExpandExtents (2 ^ 64 - 1) [mkExtent 1 2, mkExtent 3 5, mkExtent 10 2]) :=
  BlockIterator_blocks_eq_ExpandExtents (2 ^ 64 - 1)
    [mkExtent 1 2, mkExtent 3 5, mkExtent 10 2] (by decide)

/-- C1 as stated fails, with `kSparseHole` at its value `2^64 - 1`, on each kind
of extent the amended claim leaves out.  On the empty extent `(5,0)` the
iterator reads block `5` and the expansion is empty.  On the hole
`(2^64 - 1, 2)` the iterator reads `2^64 - 1` and then the wrapped sum `0`,
the expansion is two copies of the sentinel.  On `(2^64 - 2, 3)`, whose bound
wraps, the iterator reads three blocks and the expansion is empty. -/
theorem BlockIterator_blocks_counterexample :
    (BlockIterator.blocks [mkExtent 5 0] BlockIterator.init = some [5] ∧
        ExpandExtents (2 ^ 64 - 1) [mkExtent 5 0] = []) ∧
      (BlockIterator.blocks [mkExtent (2 ^ 64 - 1) 2] BlockIterator.init =
          some [2 ^ 64 - 1, 0] ∧
        ExpandExtents (2 ^ 64 - 1) [mkExtent (2 ^ 64 - 1) 2] = [2 ^ 64 - 1, 2 ^ 64 - 1]) ∧
      (BlockIterator.blocks [mkExtent (2 ^ 64 - 2) 3] BlockIterator.init =
          some [2 ^ 64 - 2, 2 ^ 64 - 1, 0] ∧
        ExpandExtents (2 ^ 64 - 1) [mkExtent (2 ^ 64 - 2) 3] = []) := by
  have h1 : (mkExtent 5 0).start_block ≠ 2 ^ 64 - 1 := by decide
  have h2 : (mkExtent (2 ^ 64 - 1) 2).start_block = 2 ^ 64 - 1 := by decide
  have h3 : (mkExtent (2 ^ 64 - 2) 3).start_block ≠ 2 ^ 64 - 1 := by decide
  refine ⟨⟨?_, ?_⟩, ⟨?_, ?_⟩, ⟨?_, ?_⟩⟩
  · rw [BlockIterator.blocks_init]
    decide
  · rw [ExpandExtents, List.foldl_cons, List.foldl_nil, ExpandExtents.body_of_ne _ _ _ h1]
    decide
  · rw [BlockIterator.blocks_init]
    decide
  · rw [ExpandExtents, List.foldl_cons, List.foldl_nil, ExpandExtents.body, if_pos h2]
    decide
  · rw [BlockIterator.blocks_init]
    decide
  · rw [ExpandExtents, List.foldl_cons, List.foldl_nil, ExpandExtents.body_of_ne _ _ _ h3]
    decide

/-! ## Properties of `GetNthBlock` -/

/-- With the accumulator at most `n`, the 64-bit subtraction `n - cur_block_count`
is the exact difference. -/
theorem u64_sub_of_le (n cur : Nat) (hn : n < 2 ^ 64) (hcur : cur ≤ n) :
    (n + (2 ^ 64 - cur % 2 ^ 64)) % 2 ^ 64 = n - cur := by
  omega

theorem GetNthBlock.loop_out_of_range (n : Nat) (hn : n < 2 ^ 64) (L : List Extent) :
    ∀ cur : Nat, cur + totalBlocks L ≤ n → GetNthBlock.loop n L cur = SIZE_MAX := by
  induction L with
  | nil => intro cur _; rfl
  | cons e L ih =>
    intro cur h
    have h2 : cur + (e.num_blocks + totalBlocks L) ≤ n := by simpa [totalBlocks] using h
    have hsub := u64_sub_of_le n cur hn (by omega)
    have hadd : (cur + e.num_blocks) % 2 ^ 64 = cur + e.num_blocks :=
      Nat.mod_eq_of_lt (by omega)
    rw [GetNthBlock.loop, hsub, if_neg (by omega), hadd]
    exact ih _ (by omega)

theorem GetNthBlock.loop_in_range (k n : Nat) (hn : n < 2 ^ 64) (L : List Extent) :
    ∀ cur : Nat, cur ≤ n → n - cur < totalBlocks L →
      (∀ e ∈ L, e.start_block ≠ k ∧ e.start_block + e.num_blocks ≤ 2 ^ 64 - 1) →
      (specExpand k L)[n - cur]? = some (GetNthBlock.loop n L cur) := by
  induction L with
  | nil => intro cur _ h; simp [totalBlocks] at h
  | cons e L ih =>
    intro cur hcur hlt hL
    have he := hL e (List.mem_cons_self _ _)
    have hlt2 : n - cur < e.num_blocks + totalBlocks L := by simpa [totalBlocks] using hlt
    have hsub := u64_sub_of_le n cur hn hcur
    have hspec : specExpand k (e :: L) =
        List.range' e.start_block e.num_blocks ++ specExpand k L := by
      simp [specExpand, specExpandExtent, he.1]
    rw [GetNthBlock.loop, hsub, hspec]
    by_cases hin : n - cur < e.num_blocks
    · rw [if_pos hin, List.getElem?_append_left (by simpa using hin),
        List.getElem?_range' _ _ hin, Nat.mod_eq_of_lt (by omega)]
      simp
    · have hadd : (cur + e.num_blocks) % 2 ^ 64 = cur + e.num_blocks :=
        Nat.mod_eq_of_lt (by omega)
      rw [if_neg hin, List.getElem?_append_right (by simpa using Nat.le_of_not_lt hin),
        List.length_range', hadd,
        ← ih (cur + e.num_blocks) (by omega) (by omega)
          (fun x hx => hL x (List.mem_cons_of_mem _ hx))]
      congr 1
      omega

theorem GetNthBlock.loop_lt_sentinel (n : Nat) (hn : n < 2 ^ 64) (L : List Extent) :
    ∀ cur : Nat, cur ≤ n → n - cur < totalBlocks L →
      (∀ e ∈ L, e.start_block + e.num_blocks ≤ 2 ^ 64 - 1) →
      GetNthBlock.loop n L cur < SIZE_MAX := by
  induction L with
  | nil => intro cur _ h; simp [totalBlocks] at h
  | cons e L ih =>
    intro cur hcur hlt hL
    have he := hL e (List.mem_cons_self _ _)
    have hlt2 : n - cur < e.num_blocks + totalBlocks L := by simpa [totalBlocks] using hlt
    have hsub := u64_sub_of_le n cur hn hcur
    rw [GetNthBlock.loop, hsub]
    by_cases hin : n - cur < e.num_blocks
    · rw [if_pos hin, Nat.mod_eq_of_lt (by omega), SIZE_MAX]
      omega
    · have hadd : (cur + e.num_blocks) % 2 ^ 64 = cur + e.num_blocks :=
        Nat.mod_eq_of_lt (by omega)
      rw [if_neg hin, hadd]
      exact ih _ (by omega) (by omega) (fun x hx => hL x (List.mem_cons_of_mem _ hx))

/-- C4: for every extent list `L` and every index `n` (a `size_t`) that is at
least the total block count of `L`, `GetNthBlock(L, n)` returns the maximum
`size_t` value. -/
theorem GetNthBlock_out_of_range (L : List Extent) (n : Nat) (hn : n < 2 ^ 64)
    (hge : totalBlocks L ≤ n) :
    GetNthBlock L n = SIZE_MAX :=
  GetNthBlock.loop_out_of_range n hn L 0 (by omega)

/-- Witness of C4, the scenario of the specification: `GetNthBlock([(5,3)], 5)`
returns the sentinel. -/
theorem GetNthBlock_out_of_range_witness :
    GetNthBlock [mkExtent 5 3] 5 = 2 ^ 64 - 1 :=
  GetNthBlock_out_of_range [mkExtent 5 3] 5 (by decide) (by decide)

/-- C5: for every extent list `L` without sparse-hole extent in which each extent
satisfies `start_block + num_blocks <= 2^64 - 1`, and every index `n` below the
total block count of `L`, `GetNthBlock(L, n)` is the element at 0-based
position `n` of `ExpandExtents(L)`. -/
theorem GetNthBlock_eq_ExpandExtents_get (k : Nat) (L : List Extent) (n : Nat)
    (hn : n < 2 ^ 64)
    (hL : ∀ e ∈ L, e.start_block ≠ k ∧ e.start_block + e.num_blocks ≤ 2 ^ 64 - 1)
    (hlt : n < totalBlocks L) :
    (ExpandExtents k L)[n]? = some (GetNthBlock L n) := by
  have hexp := ExpandExtents.foldl_eq_spec_of_no_hole k L [] hL
  rw [ExpandExtents, hexp, List.nil_append, GetNthBlock]
  exact GetNthBlock.loop_in_range k n hn L 0 (Nat.zero_le _) (by omega) hL

/-- Witness of C5: position `4` of `[(1,2),(0,0),(3,5),(10,2)]`, which has an
extent of length zero, is block `5`. -/
theorem GetNthBlock_eq_ExpandExtents_get_witness :
    (ExpandExtents (2 ^ 64 - 1)
        [mkExtent 1 2, mkExtent 0 0, mkExtent 3 5, mkExtent 10 2])[4]? = some 5 :=
  GetNthBlock_eq_ExpandExtents_get (2 ^ 64 - 1)
    [mkExtent 1 2, mkExtent 0 0, mkExtent 3 5, mkExtent 10 2] 4
    (by decide) (by decide) (by decide)

/-- C6, as amended: for every extent list `L` in which each extent satisfies
`start_block + num_blocks <= 2^64 - 1` and every index `n` (a `size_t`), if
`GetNthBlock(L, n)` returns the maximum `size_t` value then `n` is at least the
total block count of `L`. -/
theorem GetNthBlock_sentinel_out_of_range (L : List Extent) (n : Nat) (hn : n < 2 ^ 64)
    (hL : ∀ e ∈ L, e.start_block + e.num_blocks ≤ 2 ^ 64 - 1)
    (hmax : GetNthBlock L n = SIZE_MAX) :
    totalBlocks L ≤ n := by
  rcases Nat.lt_or_ge n (totalBlocks L) with hlt | hge
  · have h := GetNthBlock.loop_lt_sentinel n hn L 0 (Nat.zero_le _) (by omega) hL
    rw [GetNthBlock] at hmax
    omega
  · exact hge

/-- Witness of C6 as amended, at `GetNthBlock([(5,3)], 5)`. -/
theorem GetNthBlock_sentinel_out_of_range_witness :
    totalBlocks [mkExtent 5 3] ≤ 5 :=
  GetNthBlock_sentinel_out_of_range [mkExtent 5 3] 5 (by decide) (by decide) (by decide)

/-- C6 as stated fails: in the hole extent `(2^64 - 1, 3)` position `0` is in
range, and `GetNthBlock` returns `start_block + 0`, which is the maximum
`size_t` value. -/
theorem GetNthBlock_sentinel_counterexample :
    GetNthBlock [mkExtent (2 ^ 64 - 1) 3] 0 = SIZE_MAX ∧
      0 < totalBlocks [mkExtent (2 ^ 64 - 1) 3] := by
  decide

/-! ## Properties of `ExtentContains` -/

/-- The expansion of a single extent that is not a hole: the blocks from
`start_block` up to the wrapped bound. -/
theorem ExpandExtents_singleton_of_ne (k : Nat) (e : Extent) (hne : e.start_block ≠ k) :
    ExpandExtents k [e] =
      List.range' e.start_block
        ((e.start_block + e.num_blocks) % 2 ^ 64 - e.start_block) := by
  rw [ExpandExtents, List.foldl_cons, List.foldl_nil, ExpandExtents.body_of_ne k [] e hne,
    List.nil_append]

theorem mem_ExpandExtents_singleton_of_ne (k : Nat) (e : Extent) (hne : e.start_block ≠ k)
    (b : Nat) :
    b ∈ ExpandExtents k [e] ↔
      e.start_block ≤ b ∧ b < (e.start_block + e.num_blocks) % 2 ^ 64 := by
  rw [ExpandExtents_singleton_of_ne k e hne, List.mem_range'_1]
  omega

/-- C7, as amended: for every extent `e` that is not a sparse hole, or has
`num_blocks == 0`, and every block `b`, `ExtentContains(e, b)` is true if and
only if `b` occurs in `ExpandExtents([e])`. -/
theorem ExtentContains_iff_mem_ExpandExtents (k : Nat) (e : Extent) (b : Nat)
    (h : e.start_block ≠ k ∨ e.num_blocks = 0) :
    ExtentContains e b = true ↔ b ∈ ExpandExtents k [e] := by
  by_cases hk : e.start_block = k
  · have h0 : e.num_blocks = 0 := h.resolve_left (fun hne => hne hk)
    have hexp : ExpandExtents k [e] = [] := by
      simp [ExpandExtents, ExpandExtents.body, hk, h0, vector_resize]
    have hs := e.start_lt
    rw [hexp, ExtentContains, h0, Nat.add_zero, Nat.mod_eq_of_lt hs]
    simp only [Bool.and_eq_true, decide_eq_true_eq, List.not_mem_nil, iff_false]
    omega
  · rw [mem_ExpandExtents_singleton_of_ne k e hk b, ExtentContains]
    simp only [Bool.and_eq_true, decide_eq_true_eq]

/-- Witness of C7 as amended: block `7` lies in the extent `(3,5)`. -/
theorem ExtentContains_iff_mem_ExpandExtents_witness :
    ExtentContains (mkExtent 3 5) 7 = true ↔
      7 ∈ ExpandExtents (2 ^ 64 - 1) [mkExtent 3 5] :=
  ExtentContains_iff_mem_ExpandExtents (2 ^ 64 - 1) (mkExtent 3 5) 7 (Or.inl (by decide))

/-- C7 as stated fails, with `kSparseHole` at its value `2^64 - 1`: the
expansion of the hole `(2^64 - 1, 1)` holds the block `2^64 - 1`, and
`ExtentContains` is false there because the bound `start_block + num_blocks`
wraps to `0`. -/
theorem ExtentContains_block_counterexample :
    ExtentContains (mkExtent (2 ^ 64 - 1) 1) (2 ^ 64 - 1) = false ∧
      2 ^ 64 - 1 ∈ ExpandExtents (2 ^ 64 - 1) [mkExtent (2 ^ 64 - 1) 1] := by
  have h2 : (mkExtent (2 ^ 64 - 1) 1).start_block = 2 ^ 64 - 1 := by decide
  refine ⟨by decide, ?_⟩
  rw [ExpandExtents, List.foldl_cons, List.foldl_nil, ExpandExtents.body, if_pos h2]
  decide

/-- C8, as amended: for every pair of extents `big` and `small`, neither a
sparse hole, where `small` has `num_blocks >= 1` and
`start_block + num_blocks <= 2^64 - 1`, `ExtentContains(big, small)` is true if
and only if every element of `ExpandExtents([small])` occurs in
`ExpandExtents([big])`. -/
theorem ExtentContainsExtent_iff_subset (k : Nat) (big small : Extent)
    (hbig : big.start_block ≠ k) (hsmall : small.start_block ≠ k)
    (hnum : 1 ≤ small.num_blocks)
    (hsum : small.start_block + small.num_blocks ≤ 2 ^ 64 - 1) :
    ExtentContainsExtent big small = true ↔
      ∀ b ∈ ExpandExtents k [small], b ∈ ExpandExtents k [big] := by
  have hmod : (small.start_block + small.num_blocks) % 2 ^ 64 =
      small.start_block + small.num_blocks := Nat.mod_eq_of_lt (by omega)
  simp only [mem_ExpandExtents_singleton_of_ne k big hbig,
    mem_ExpandExtents_singleton_of_ne k small hsmall, hmod, ExtentContainsExtent,
    Bool.and_eq_true, decide_eq_true_eq]
  constructor
  · intro h b hb
    omega
  · intro h
    have hfirst := h small.start_block (by omega)
    have hlast := h (small.start_block + small.num_blocks - 1) (by omega)
    omega

/-- Witness of C8 as amended: the extent `(3,5)` contains `(4,2)`. -/
theorem ExtentContainsExtent_iff_subset_witness :
    ExtentContainsExtent (mkExtent 3 5) (mkExtent 4 2) = true ↔
      ∀ b ∈ ExpandExtents (2 ^ 64 - 1) [mkExtent 4 2],
        b ∈ ExpandExtents (2 ^ 64 - 1) [mkExtent 3 5] :=
  ExtentContainsExtent_iff_subset (2 ^ 64 - 1) (mkExtent 3 5) (mkExtent 4 2)
    (by decide) (by decide) (by decide) (by decide)

/-- C8 as stated fails, with `kSparseHole` at its value `2^64 - 1`.  The empty
extent `(5,0)` has no block, so each of its blocks is a block of `(10,2)`, and
`ExtentContains((10,2), (5,0))` is false.  The same holds of `(2^64 - 2, 5)`,
whose bound wraps, against `(0,1)`.  The hole `(2^64 - 1, 1)` expands to the
sentinel, which is no block of `(2^64 - 2, 1)`, and `ExtentContains` is true
because the end of the hole wraps to `0`. -/
theorem ExtentContainsExtent_counterexample :
    (ExtentContainsExtent (mkExtent 10 2) (mkExtent 5 0) = false ∧
        ∀ b ∈ ExpandExtents (2 ^ 64 - 1) [mkExtent 5 0],
          b ∈ ExpandExtents (2 ^ 64 - 1) [mkExtent 10 2]) ∧
      (ExtentContainsExtent (mkExtent 0 1) (mkExtent (2 ^ 64 - 2) 5) = false ∧
        ∀ b ∈ ExpandExtents (2 ^ 64 - 1) [mkExtent (2 ^ 64 - 2) 5],
          b ∈ ExpandExtents (2 ^ 64 - 1) [mkExtent 0 1]) ∧
      (ExtentContainsExtent (mkExtent (2 ^ 64 - 2) 1) (mkExtent (2 ^ 64 - 1) 1) = true ∧
        2 ^ 64 - 1 ∈ ExpandExtents (2 ^ 64 - 1) [mkExtent (2 ^ 64 - 1) 1] ∧
        2 ^ 64 - 1 ∉ ExpandExtents (2 ^ 64 - 1) [mkExtent (2 ^ 64 - 2) 1]) := by
  have h1 : (mkExtent 5 0).start_block ≠ 2 ^ 64 - 1 := by decide
  have h2 : (mkExtent (2 ^ 64 - 2) 5).start_block ≠ 2 ^ 64 - 1 := by decide
  have h3 : (mkExtent (2 ^ 64 - 1) 1).start_block = 2 ^ 64 - 1 := by decide
  have h4 : (mkExtent (2 ^ 64 - 2) 1).start_block ≠ 2 ^ 64 - 1 := by decide
  refine ⟨⟨by decide, ?_⟩, ⟨by decide, ?_⟩, ⟨by decide, ?_, ?_⟩⟩
  · rw [ExpandExtents_singleton_of_ne _ _ h1]
    decide
  · rw [ExpandExtents_singleton_of_ne _ _ h2]
    decide
  · rw [ExpandExtents, List.foldl_cons, List.foldl_nil, ExpandExtents.body, if_pos h3]
    decide
  · rw [ExpandExtents_singleton_of_ne _ _ h4]
    decide

/-! ## Properties of `Dedup` -/

theorem std_unique.go_spec {α : Type} [LinearOrder α] (xs : List α) :
    ∀ last : α, (last :: xs).Sorted (· ≤ ·) →
      (last :: std_unique.go last xs).Sorted (· < ·) ∧
        ∀ x, x ∈ last :: std_unique.go last xs ↔ x ∈ last :: xs := by
  induction xs with
  | nil =>
    intro last _
    simp [std_unique.go]
  | cons y ys ih =>
    intro last hs
    have hs2 := List.sorted_cons.mp hs
    have hys := List.sorted_cons.mp hs2.2
    by_cases heq : last = y
    · subst heq
      have h := ih last hs2.2
      rw [std_unique.go, if_pos rfl]
      refine ⟨h.1, fun x => ?_⟩
      rw [h.2 x]
      simp
    · have hlt : last < y := lt_of_le_of_ne (hs2.1 y (List.mem_cons_self _ _)) heq
      have h := ih y hs2.2
      rw [std_unique.go, if_neg heq]
      refine ⟨List.sorted_cons.mpr ⟨fun b hb => ?_, h.1⟩, fun x => ?_⟩
      · rcases List.mem_cons.mp ((h.2 b).mp hb) with hb | hb
        · rw [hb]
          exact hlt
        · exact lt_of_lt_of_le hlt (hys.1 b hb)
      · rw [List.mem_cons, h.2 x]
        simp

theorem std_unique_spec {α : Type} [LinearOrder α] (l : List α) (hs : l.Sorted (· ≤ ·)) :
    (std_unique l).Sorted (· < ·) ∧ ∀ x, x ∈ std_unique l ↔ x ∈ l := by
  cases l with
  | nil => simp [std_unique]
  | cons a rest => exact std_unique.go_spec rest a hs

/-- C10: for every container `c` of elements of a totally ordered type, after
`Dedup(c)` the container is sorted in strictly increasing order, so no two
neighbours are equal, and it holds exactly the values that `c` held before the
call. -/
theorem Dedup_sorted_same_elements {α : Type} [LinearOrder α] (c : List α) :
    (Dedup c).Sorted (· < ·) ∧ (Dedup c).Chain' (· ≠ ·) ∧
      ∀ x, x ∈ Dedup c ↔ x ∈ c := by
  have h := std_unique_spec (std_sort c) (List.sorted_insertionSort (· ≤ ·) c)
  refine ⟨h.1, ?_, fun x => ?_⟩
  · exact (List.Pairwise.chain' h.1).imp fun _ _ hab => ne_of_lt hab
  · rw [Dedup, h.2 x, std_sort]
    exact (List.perm_insertionSort (· ≤ ·) c).mem_iff

/-! ## Consistency of the two `ExtentContains` overloads -/

/-- C18: the two `ExtentContains` overloads are consistent for all `uint64`
field values, wrapping sums included: `ExtentContains(e, e)` holds for every
`e`; `ExtentContains(big, mid)` and `ExtentContains(mid, small)` imply
`ExtentContains(big, small)`; and `ExtentContains(big, small)` with
`ExtentContains(small, b)` implies `ExtentContains(big, b)`. -/
theorem ExtentContains_overloads_consistent :
    (∀ e : Extent, ExtentContainsExtent e e = true) ∧
      (∀ big mid small : Extent, ExtentContainsExtent big mid = true →
        ExtentContainsExtent mid small = true → ExtentContainsExtent big small = true) ∧
      (∀ (big small : Extent) (b : Nat), ExtentContainsExtent big small = true →
        ExtentContains small b = true → ExtentContains big b = true) := by
  refine ⟨fun e => ?_, fun big mid small h1 h2 => ?_, fun big small b h1 h2 => ?_⟩
  · simp [ExtentContainsExtent]
  · simp only [ExtentContainsExtent, Bool.and_eq_true, decide_eq_true_eq] at h1 h2 ⊢
    omega
  · simp only [ExtentContainsExtent, ExtentContains, Bool.and_eq_true,
      decide_eq_true_eq] at h1 h2 ⊢
    omega

/-- Witness of C18: reflexivity at `(2^64 - 4, 7)`, whose sum
`start_block + num_blocks` wraps to `3`; transitivity through `(0,3)`, `(1,2)`
and `(2,1)`; and block `2` of `(2,1)` found in `(1,2)`. -/
theorem ExtentContains_overloads_consistent_witness :
    ExtentContainsExtent (mkExtent (2 ^ 64 - 4) 7) (mkExtent (2 ^ 64 - 4) 7) = true ∧
      ExtentContainsExtent (mkExtent 0 3) (mkExtent 2 1) = true ∧
      ExtentContains (mkExtent 1 2) 2 = true :=
  ⟨ExtentContains_overloads_consistent.1 (mkExtent (2 ^ 64 - 4) 7),
    ExtentContains_overloads_consistent.2.1 (mkExtent 0 3) (mkExtent 1 2) (mkExtent 2 1)
      (by decide) (by decide),
    ExtentContains_overloads_consistent.2.2 (mkExtent 1 2) (mkExtent 2 1) 2
      (by decide) (by decide)⟩

/-! ## `ExtentLess` as an order -/

theorem ExtentLess_eq_true_iff (x y : Extent) :
    ExtentLess x y = true ↔
      (x.start_block < y.start_block ∨
        (x.start_block = y.start_block ∧ x.num_blocks < y.num_blocks)) := by
  unfold ExtentLess
  split <;> simp only [decide_eq_true_eq] <;> omega

theorem ExtentLess_eq_false_iff (x y : Extent) :
    ExtentLess x y = false ↔
      (y.start_block < x.start_block ∨
        (x.start_block = y.start_block ∧ y.num_blocks ≤ x.num_blocks)) := by
  unfold ExtentLess
  split <;> simp only [decide_eq_false_iff_not] <;> omega

/-- C19: `ExtentLess` is a strict total order on extents: it is irreflexive and
transitive, for any two extents exactly one of `ExtentLess(x, y)`,
`ExtentLess(y, x)` and field-wise equality holds, and two extents are
incomparable exactly when both fields are equal. -/
theorem ExtentLess_strict_total_order :
    (∀ x : Extent, ExtentLess x x = false) ∧
      (∀ x y z : Extent, ExtentLess x y = true → ExtentLess y z = true →
        ExtentLess x z = true) ∧
      (∀ x y : Extent,
        (ExtentLess x y = true ∧ ExtentLess y x = false ∧
            ¬(x.start_block = y.start_block ∧ x.num_blocks = y.num_blocks)) ∨
          (ExtentLess x y = false ∧ ExtentLess y x = true ∧
            ¬(x.start_block = y.start_block ∧ x.num_blocks = y.num_blocks)) ∨
          (ExtentLess x y = false ∧ ExtentLess y x = false ∧
            (x.start_block = y.start_block ∧ x.num_blocks = y.num_blocks))) ∧
      (∀ x y : Extent, (ExtentLess x y = false ∧ ExtentLess y x = false) ↔
        (x.start_block = y.start_block ∧ x.num_blocks = y.num_blocks)) := by
  refine ⟨fun x => ?_, fun x y z h1 h2 => ?_, fun x y => ?_, fun x y => ?_⟩
  · rw [ExtentLess_eq_false_iff]
    omega
  · rw [ExtentLess_eq_true_iff] at h1 h2 ⊢
    omega
  · simp only [ExtentLess_eq_true_iff, ExtentLess_eq_false_iff]
    omega
  · simp only [ExtentLess_eq_false_iff]
    omega

/-- Witness of C19: `(1,2) < (1,7) < (3,5)` gives `(1,2) < (3,5)`. -/
theorem ExtentLess_strict_total_order_witness :
    ExtentLess (mkExtent 1 2) (mkExtent 3 5) = true :=
  ExtentLess_strict_total_order.2.1 (mkExtent 1 2) (mkExtent 1 7) (mkExtent 3 5)
    (by decide) (by decide)

/-! ## The size of the vector of `ExpandExtents` -/

theorem vector_resize_length_le (ret : List Nat) (n v : Nat) :
    (vector_resize ret n v).length ≤ max n ret.length := by
  unfold vector_resize
  split
  · simp only [List.length_take]
    omega
  · simp only [List.length_append, List.length_replicate]
    omega

theorem ExpandExtents.body_length_le (k : Nat) (ret : List Nat) (e : Extent) :
    (ExpandExtents.body k ret e).length ≤ ret.length + e.num_blocks := by
  by_cases h : e.start_block = k
  · have hres := vector_resize_length_le ret ((ret.length + e.num_blocks) % 2 ^ 64) k
    have hmod := Nat.mod_le (ret.length + e.num_blocks) (2 ^ 64)
    rw [ExpandExtents.body, if_pos h]
    omega
  · have hmod := Nat.mod_le (e.start_block + e.num_blocks) (2 ^ 64)
    rw [ExpandExtents.body_of_ne k ret e h, List.length_append, List.length_range']
    omega

theorem ExpandExtents.length_le (k : Nat) (A : List Extent) :
    ∀ ret : List Nat,
      (A.foldl (ExpandExtents.body k) ret).length ≤ ret.length + totalBlocks A := by
  induction A with
  | nil => intro ret; simp [totalBlocks]
  | cons e A ih =>
    intro ret
    have h1 := ExpandExtents.body_length_le k ret e
    have h2 := ih (ExpandExtents.body k ret e)
    simp only [totalBlocks, List.map_cons, List.sum_cons, List.foldl_cons] at h2 ⊢
    omega

/-! ## States of the `BlockIterator` -/

namespace BlockIterator

theorem Reachable.bounds {L : List Extent} {it : BlockIterator} (h : Reachable L it) :
    0 ≤ it.cur_extent_ ∧ it.cur_extent_ ≤ (L.length : Int) := by
  induction h with
  | init =>
    show (0 : Int) ≤ 0 ∧ (0 : Int) ≤ (L.length : Int)
    omega
  | step hr hinc ih =>
    rename_i it next
    unfold inc at hinc
    split at hinc
    · cases hat : at? L it.cur_extent_ with
      | none => simp [hat] at hinc
      | some e =>
        simp only [hat] at hinc
        split at hinc
        · injection hinc with hinc
          subst hinc
          simp only
          omega
        · injection hinc with hinc
          subst hinc
          simp only
          omega
    · simp at hinc

theorem at?_of_bounds (L : List Extent) (c : Int) (h0 : 0 ≤ c) (hlt : c < (L.length : Int)) :
    ∃ e, at? L c = some e ∧ L[c.toNat]? = some e := by
  have hi : c.toNat < L.length := by omega
  refine ⟨L[c.toNat], ?_, List.getElem?_eq_getElem hi⟩
  rw [at?, if_neg (by omega), List.getElem?_eq_getElem hi]

end BlockIterator

/-- C11: for every extent list and every `BlockIterator` state reachable over it,
`is_end()` is true exactly when `cur_extent_` equals the list length,
`operator++` aborts exactly when `is_end()` is true, and when `is_end()` is
false `operator++` returns a state.  The abort is the one of `CHECK_LT`:
whenever the check passes, the access `extents_[cur_extent_]` is inside the
list. -/
theorem BlockIterator_inc_aborts_iff_is_end (L : List Extent) (it : BlockIterator)
    (h : BlockIterator.Reachable L it) :
    (BlockIterator.is_end L it = true ↔ it.cur_extent_ = (L.length : Int)) ∧
      (BlockIterator.inc L it = none ↔ BlockIterator.is_end L it = true) ∧
      (BlockIterator.is_end L it = false → ∃ next, BlockIterator.inc L it = some next) ∧
      (it.cur_extent_ < (L.length : Int) →
        ∃ e, BlockIterator.at? L it.cur_extent_ = some e) := by
  have hb := h.bounds
  have hat : it.cur_extent_ < (L.length : Int) →
      ∃ e, BlockIterator.at? L it.cur_extent_ = some e := by
    intro hlt
    obtain ⟨e, he, -⟩ := BlockIterator.at?_of_bounds L it.cur_extent_ hb.1 hlt
    exact ⟨e, he⟩
  have hinc : it.cur_extent_ < (L.length : Int) →
      ∃ next, BlockIterator.inc L it = some next := by
    intro hlt
    obtain ⟨e, he⟩ := hat hlt
    simp only [BlockIterator.inc, if_pos hlt, he]
    split
    · exact ⟨_, rfl⟩
    · exact ⟨_, rfl⟩
  refine ⟨?_, ?_, ?_, hat⟩
  · simp only [BlockIterator.is_end, decide_eq_true_eq]
    omega
  · simp only [BlockIterator.is_end, decide_eq_true_eq]
    constructor
    · intro hnone
      by_contra hlt
      obtain ⟨next, hn⟩ := hinc (by omega)
      rw [hnone] at hn
      cases hn
    · intro hge
      simp only [BlockIterator.inc, if_neg (show ¬ it.cur_extent_ < (L.length : Int) by omega)]
  · intro hend
    simp only [BlockIterator.is_end, decide_eq_false_iff_not] at hend
    exact hinc (by omega)

/-- Witness of C11: over `[(1,2),(3,5)]` the state `(0, 1)` is reached by one
`operator++`; there the four statements hold. -/
theorem BlockIterator_inc_aborts_iff_is_end_witness :
    (BlockIterator.is_end [mkExtent 1 2, mkExtent 3 5] ⟨0, 1⟩ = true ↔
        (0 : Int) = ([mkExtent 1 2, mkExtent 3 5].length : Int)) ∧
      (BlockIterator.inc [mkExtent 1 2, mkExtent 3 5] ⟨0, 1⟩ = none ↔
        BlockIterator.is_end [mkExtent 1 2, mkExtent 3 5] ⟨0, 1⟩ = true) ∧
      (BlockIterator.is_end [mkExtent 1 2, mkExtent 3 5] ⟨0, 1⟩ = false →
        ∃ next, BlockIterator.inc [mkExtent 1 2, mkExtent 3 5] ⟨0, 1⟩ = some next) ∧
      ((0 : Int) < ([mkExtent 1 2, mkExtent 3 5].length : Int) →
        ∃ e, BlockIterator.at? [mkExtent 1 2, mkExtent 3 5] 0 = some e) :=
  BlockIterator_inc_aborts_iff_is_end [mkExtent 1 2, mkExtent 3 5] ⟨0, 1⟩
    (BlockIterator.Reachable.step BlockIterator.Reachable.init (by decide))

/-! ## The invariant of the `BlockIterator` and the count of its advances -/

theorem totalBlocks_append (A B : List Extent) :
    totalBlocks (A ++ B) = totalBlocks A + totalBlocks B := by
  simp [totalBlocks]

theorem totalBlocks_take_succ (L : List Extent) (i : Nat) (e : Extent)
    (he : L[i]? = some e) :
    totalBlocks (L.take (i + 1)) = totalBlocks (L.take i) + e.num_blocks := by
  rw [List.take_succ, he, totalBlocks_append]
  simp [totalBlocks]

theorem totalBlocks_take_le (L : List Extent) (i : Nat) :
    totalBlocks (L.take i) ≤ totalBlocks L := by
  have h := totalBlocks_append (L.take i) (L.drop i)
  rw [List.take_append_drop] at h
  omega

namespace BlockIterator

theorem inv_init (L : List Extent) (hL : ∀ e ∈ L, 1 ≤ e.num_blocks) : Inv L init := by
  refine ⟨le_refl _, ?_, ?_, fun _ => rfl⟩
  · show (0 : Int) ≤ (L.length : Int)
    omega
  · intro hlt
    obtain ⟨e, he, hget⟩ := at?_of_bounds L 0 (le_refl _) hlt
    have hmem : e ∈ L := List.getElem?_mem hget
    exact ⟨e, he, hL e hmem⟩

theorem inv_step (L : List Extent) (hL : ∀ e ∈ L, 1 ≤ e.num_blocks) (it next : BlockIterator)
    (hinv : Inv L it) (hinc : inc L it = some next) :
    Inv L next ∧ position L next = position L it + 1 := by
  obtain ⟨h0, hle, hcur, -⟩ := hinv
  unfold inc at hinc
  split at hinc
  · rename_i hlt
    obtain ⟨e, he, hoff⟩ := hcur hlt
    obtain ⟨e2, he2, hget⟩ := at?_of_bounds L it.cur_extent_ h0 hlt
    rw [he] at he2
    injection he2 with he2
    subst he2
    have hn := e.num_lt
    have hm : (it.block_offset_ + 1) % 2 ^ 64 = it.block_offset_ + 1 :=
      Nat.mod_eq_of_lt (by omega)
    simp only [he, hm] at hinc
    split at hinc
    · injection hinc with hinc
      subst hinc
      have htn : (it.cur_extent_ + 1).toNat = it.cur_extent_.toNat + 1 := by omega
      refine ⟨⟨by simp only; omega, by simp only; omega, ?_, fun _ => rfl⟩, ?_⟩
      · intro hlt2
        simp only at hlt2
        obtain ⟨e3, he3, hget3⟩ := at?_of_bounds L (it.cur_extent_ + 1) (by omega) hlt2
        exact ⟨e3, he3, hL e3 (List.getElem?_mem hget3)⟩
      · simp only [position, htn]
        rw [totalBlocks_take_succ L _ e hget]
        omega
    · injection hinc with hinc
      subst hinc
      refine ⟨⟨h0, hle, fun _ => ⟨e, he, by simp only; omega⟩, fun heq => ?_⟩, ?_⟩
      · simp only at heq
        omega
      · simp only [position]
        omega
  · simp at hinc

theorem Reachable.inv {L : List Extent} (hL : ∀ e ∈ L, 1 ≤ e.num_blocks) {it : BlockIterator}
    (h : Reachable L it) : Inv L it := by
  induction h with
  | init => exact inv_init L hL
  | step _ hinc ih => exact (inv_step L hL _ _ ih hinc).1

theorem position_le (L : List Extent) (it : BlockIterator) (hinv : Inv L it) :
    position L it ≤ totalBlocks L ∧
      (position L it = totalBlocks L ↔ it.cur_extent_ = (L.length : Int)) := by
  obtain ⟨h0, hle, hcur, hend⟩ := hinv
  rcases lt_or_ge it.cur_extent_ (L.length : Int) with hlt | hge
  · obtain ⟨e, he, hoff⟩ := hcur hlt
    obtain ⟨e2, he2, hget⟩ := at?_of_bounds L it.cur_extent_ h0 hlt
    rw [he] at he2
    injection he2 with he2
    subst he2
    have h1 := totalBlocks_take_succ L _ e hget
    have h2 := totalBlocks_take_le L (it.cur_extent_.toNat + 1)
    simp only [position]
    omega
  · have heq : it.cur_extent_ = (L.length : Int) := by omega
    have hoff := hend heq
    have htake : L.take it.cur_extent_.toNat = L := by
      rw [heq, Int.toNat_ofNat, List.take_length]
    simp only [position, htake, hoff]
    omega

theorem advance_position (L : List Extent) (hL : ∀ e ∈ L, 1 ≤ e.num_blocks) (m : Nat) :
    ∀ it : BlockIterator, Inv L it → position L it + m ≤ totalBlocks L →
      ∃ last, advance L m it = some last ∧ Inv L last ∧
        position L last = position L it + m := by
  induction m with
  | zero => intro it hinv _; exact ⟨it, rfl, hinv, rfl⟩
  | succ m ih =>
    intro it hinv hpos
    have hp := position_le L it hinv
    have hlt : it.cur_extent_ < (L.length : Int) := by
      rcases lt_or_ge it.cur_extent_ (L.length : Int) with hlt | hge
      · exact hlt
      · have := hp.2.mpr (by have := hinv.2.1; omega)
        omega
    obtain ⟨e, he, hoff⟩ := hinv.2.2.1 hlt
    have hn := e.num_lt
    obtain ⟨next, hnext⟩ : ∃ next, inc L it = some next := by
      simp only [inc, if_pos hlt, he]
      split
      · exact ⟨_, rfl⟩
      · exact ⟨_, rfl⟩
    obtain ⟨hinv2, hpos2⟩ := inv_step L hL it next hinv hnext
    obtain ⟨last, hlast, hinv3, hpos3⟩ := ih next hinv2 (by omega)
    refine ⟨last, ?_, hinv3, by omega⟩
    simp only [advance, hnext, Option.some_bind]
    exact hlast

end BlockIterator

/-- C16: for every extent list in which every extent has `num_blocks >= 1`, every
`BlockIterator` state reachable from the freshly constructed state by
`operator++` calls (which return only while `is_end()` is false) satisfies
`0 <= cur_extent_ <= list length`; whenever `cur_extent_` is below the list
length, `block_offset_` is below `num_blocks` of the extent `cur_extent_`; and
at the end state `block_offset_ == 0`. -/
theorem BlockIterator_reachable_invariant (L : List Extent)
    (hL : ∀ e ∈ L, 1 ≤ e.num_blocks) (it : BlockIterator)
    (h : BlockIterator.Reachable L it) :
    0 ≤ it.cur_extent_ ∧ it.cur_extent_ ≤ (L.length : Int) ∧
      (it.cur_extent_ < (L.length : Int) →
        ∃ e, BlockIterator.at? L it.cur_extent_ = some e ∧
          it.block_offset_ < e.num_blocks) ∧
      (BlockIterator.is_end L it = true → it.block_offset_ = 0) := by
  obtain ⟨h0, hle, hcur, hend⟩ := h.inv hL
  refine ⟨h0, hle, hcur, fun he => hend ?_⟩
  simp only [BlockIterator.is_end, decide_eq_true_eq] at he
  omega

/-- Witness of C16: over `[(1,2),(3,5)]` the state `(1, 0)` is reached by two
calls of `operator++`. -/
theorem BlockIterator_reachable_invariant_witness :
    (0 : Int) ≤ 1 ∧ (1 : Int) ≤ ([mkExtent 1 2, mkExtent 3 5].length : Int) ∧
      ((1 : Int) < ([mkExtent 1 2, mkExtent 3 5].length : Int) →
        ∃ e, BlockIterator.at? [mkExtent 1 2, mkExtent 3 5] 1 = some e ∧
          0 < e.num_blocks) ∧
      (BlockIterator.is_end [mkExtent 1 2, mkExtent 3 5] ⟨1, 0⟩ = true → 0 = 0) :=
  BlockIterator_reachable_invariant [mkExtent 1 2, mkExtent 3 5] (by decide) ⟨1, 0⟩
    (@BlockIterator.Reachable.step [mkExtent 1 2, mkExtent 3 5] ⟨0, 1⟩ ⟨1, 0⟩
      (@BlockIterator.Reachable.step [mkExtent 1 2, mkExtent 3 5] ⟨0, 0⟩ ⟨0, 1⟩
        BlockIterator.Reachable.init (by decide))
      (by decide))

/-- C15: for every extent list `L` in which every extent has `num_blocks >= 1`,
is not a sparse hole and satisfies `start_block + num_blocks <= 2^64 - 1`, the
loop that reads `operator*` and applies `operator++` while `is_end()` is false
never fails a `CHECK` and reads exactly `ExpandExtents(L)`; fewer than
`sum(num_blocks)` advances lead to a state that is not the end, and exactly
`sum(num_blocks)` advances lead to the end. -/
theorem BlockIterator_run_to_completion (k : Nat) (L : List Extent)
    (h : ∀ e ∈ L, 1 ≤ e.num_blocks ∧ e.start_block ≠ k ∧
      e.start_block + e.num_blocks ≤ 2 ^ 64 - 1) :
    BlockIterator.blocks L BlockIterator.init = some (ExpandExtents k L) ∧
      (∀ m, m < totalBlocks L →
        ∃ it, BlockIterator.advance L m BlockIterator.init = some it ∧
          BlockIterator.is_end L it = false) ∧
      (∃ last, BlockIterator.advance L (totalBlocks L) BlockIterator.init = some last ∧
        BlockIterator.is_end L last = true) := by
  have hL : ∀ e ∈ L, 1 ≤ e.num_blocks := fun e he => (h e he).1
  have hinit := BlockIterator.inv_init L hL
  have hpos0 : BlockIterator.position L BlockIterator.init = 0 := by
    simp [BlockIterator.position, BlockIterator.init, totalBlocks]
  refine ⟨?_, fun m hm => ?_, ?_⟩
  · have hexp := ExpandExtents.foldl_eq_spec_of_no_hole k L []
      (fun e he => ⟨(h e he).2.1, (h e he).2.2⟩)
    rw [BlockIterator.blocks_init, ExpandExtents, hexp, List.nil_append, specExpand]
    congr 1
    apply List.flatMap_congr
    intro e he
    exact extentReads_eq_spec k e (h e he).1 (h e he).2.1 (h e he).2.2
  · obtain ⟨it, hit, hinv, hpos⟩ :=
      BlockIterator.advance_position L hL m BlockIterator.init hinit (by omega)
    refine ⟨it, hit, ?_⟩
    have hp := BlockIterator.position_le L it hinv
    simp only [BlockIterator.is_end, decide_eq_false_iff_not]
    intro hge
    have := hp.2.mpr (by have := hinv.2.1; omega)
    omega
  · obtain ⟨last, hlast, hinv, hpos⟩ :=
      BlockIterator.advance_position L hL (totalBlocks L) BlockIterator.init hinit (by omega)
    refine ⟨last, hlast, ?_⟩
    have hp := BlockIterator.position_le L last hinv
    simp only [BlockIterator.is_end, decide_eq_true_eq]
    have := hp.2.mp (by omega)
    omega

/-- Witness of C15, at the list `[(1,2),(3,5),(10,2)]` with the sentinel
`2^64 - 1`: nine advances. -/
theorem BlockIterator_run_to_completion_witness :
    BlockIterator.blocks [mkExtent 1 2, mkExtent 3 5, mkExtent 10 2] BlockIterator.init =
        some (ExpandExtents (2 ^ 64 - 1) [mkExtent 1 2, mkExtent 3 5, mkExtent 10 2]) ∧
      (∀ m, m < 9 →
        ∃ it, BlockIterator.advance [mkExtent 1 2, mkExtent 3 5, mkExtent 10 2] m
            BlockIterator.init = some it ∧
          BlockIterator.is_end [mkExtent 1 2, mkExtent 3 5, mkExtent 10 2] it = false) ∧
      (∃ last, BlockIterator.advance [mkExtent 1 2, mkExtent 3 5, mkExtent 10 2] 9
          BlockIterator.init = some last ∧
        BlockIterator.is_end [mkExtent 1 2, mkExtent 3 5, mkExtent 10 2] last = true) :=
  BlockIterator_run_to_completion (2 ^ 64 - 1) [mkExtent 1 2, mkExtent 3 5, mkExtent 10 2]
    (by decide)

/-! ## The accumulator of `GetNthBlock` -/

theorem GetNthBlock.loopTraced_fst (n : Nat) (L : List Extent) :
    ∀ cur : Nat, (GetNthBlock.loopTraced n L cur).1 = GetNthBlock.loop n L cur := by
  induction L with
  | nil => intro cur; rfl
  | cons e L ih =>
    intro cur
    rw [GetNthBlock.loopTraced, GetNthBlock.loop]
    split
    · rfl
    · exact ih _

theorem GetNthBlock.loopTraced_length_le (n : Nat) (L : List Extent) :
    ∀ cur : Nat, (GetNthBlock.loopTraced n L cur).2.length ≤ L.length := by
  induction L with
  | nil => intro cur; simp [GetNthBlock.loopTraced]
  | cons e L ih =>
    intro cur
    rw [GetNthBlock.loopTraced]
    split
    · simp
    · have := ih ((cur + e.num_blocks) % 2 ^ 64)
      simp only [List.length_cons]
      omega

theorem GetNthBlock.loopTraced_inv (n : Nat) (hn : n < 2 ^ 64) (L : List Extent) :
    ∀ (cur i c : Nat), cur ≤ n → (GetNthBlock.loopTraced n L cur).2[i]? = some c →
      c = cur + totalBlocks (L.take i) ∧ c ≤ n := by
  induction L with
  | nil =>
    intro cur i c _ h
    simp [GetNthBlock.loopTraced] at h
  | cons e L ih =>
    intro cur i c hcur h
    have hsub := u64_sub_of_le n cur hn hcur
    rw [GetNthBlock.loopTraced, hsub] at h
    cases i with
    | zero =>
      have hc : c = cur := by
        split at h <;> simpa using h.symm
      subst hc
      exact ⟨by simp [totalBlocks], hcur⟩
    | succ i =>
      split at h
      · simp at h
      · rename_i hge
        have hadd : (cur + e.num_blocks) % 2 ^ 64 = cur + e.num_blocks :=
          Nat.mod_eq_of_lt (by omega)
        rw [hadd] at h
        simp only [List.getElem?_cons_succ] at h
        have := ih (cur + e.num_blocks) i c (by omega) h
        simp only [List.take_succ_cons, totalBlocks, List.map_cons, List.sum_cons] at this ⊢
        omega

theorem GetNthBlock.loopTraced_length_out_of_range (n : Nat) (hn : n < 2 ^ 64)
    (L : List Extent) :
    ∀ cur : Nat, cur + totalBlocks L ≤ n →
      (GetNthBlock.loopTraced n L cur).2.length = L.length := by
  induction L with
  | nil => intro cur _; rfl
  | cons e L ih =>
    intro cur h
    have h2 : cur + (e.num_blocks + totalBlocks L) ≤ n := by simpa [totalBlocks] using h
    have hsub := u64_sub_of_le n cur hn (by omega)
    have hadd : (cur + e.num_blocks) % 2 ^ 64 = cur + e.num_blocks :=
      Nat.mod_eq_of_lt (by omega)
    rw [GetNthBlock.loopTraced, hsub, if_neg (by omega), hadd, List.length_cons,
      List.length_cons, ih _ (by omega)]

/-- C17: for every extent list `L` and every index `n`, at the start of each loop
iteration of `GetNthBlock` the accumulator `cur_block_count` is at most `n` and
equals the sum of `num_blocks` of the extents already visited; hence the
unsigned subtraction `n - cur_block_count` yields the exact difference, and the
update `cur_block_count += num_blocks`, which is executed in every iteration
whose test fails, the last one of a walk that exhausts the list included,
yields the exact sum, which is at most `n`.  The value is the one that the next
iteration starts with, and a call with `n` out of range runs one iteration for
each extent. -/
theorem GetNthBlock_accumulator_invariant (L : List Extent) (n : Nat) (hn : n < 2 ^ 64) :
    (GetNthBlock.loopTraced n L 0).1 = GetNthBlock L n ∧
      (totalBlocks L ≤ n → (GetNthBlock.loopTraced n L 0).2.length = L.length) ∧
      ∀ i cur : Nat, (GetNthBlock.loopTraced n L 0).2[i]? = some cur →
        cur ≤ n ∧ cur = totalBlocks (L.take i) ∧
          (n + (2 ^ 64 - cur % 2 ^ 64)) % 2 ^ 64 + cur = n ∧
          (∃ e, L[i]? = some e ∧
            (¬ (n + (2 ^ 64 - cur % 2 ^ 64)) % 2 ^ 64 < e.num_blocks →
              cur + e.num_blocks ≤ n ∧
                (cur + e.num_blocks) % 2 ^ 64 = cur + e.num_blocks)) ∧
          ∀ next : Nat, (GetNthBlock.loopTraced n L 0).2[i + 1]? = some next →
            ∃ e, L[i]? = some e ∧ next = cur + e.num_blocks ∧
              cur + e.num_blocks ≤ n := by
  refine ⟨GetNthBlock.loopTraced_fst n L 0,
    fun hge => GetNthBlock.loopTraced_length_out_of_range n hn L 0 (by omega),
    fun i cur hcur => ?_⟩
  have h1 := GetNthBlock.loopTraced_inv n hn L 0 i cur (Nat.zero_le _) hcur
  have hsub := u64_sub_of_le n cur hn h1.2
  have hlen := GetNthBlock.loopTraced_length_le n L 0
  have hi0 : i < (GetNthBlock.loopTraced n L 0).2.length := by
    rcases Nat.lt_or_ge i (GetNthBlock.loopTraced n L 0).2.length with h | h
    · exact h
    · rw [List.getElem?_eq_none h] at hcur
      cases hcur
  have hget : L[i]? = some L[i] := List.getElem?_eq_getElem (by omega)
  have hsucc := totalBlocks_take_succ L i L[i] hget
  refine ⟨h1.2, by omega, by omega, ⟨L[i], hget, fun htest => ?_⟩, fun next hnext => ?_⟩
  · have hle : cur + L[i].num_blocks ≤ n := by omega
    exact ⟨hle, Nat.mod_eq_of_lt (by omega)⟩
  · have h2 := GetNthBlock.loopTraced_inv n hn L 0 (i + 1) next (Nat.zero_le _) hnext
    exact ⟨L[i], hget, by omega, by omega⟩

/-- Witness of C17: `GetNthBlock([(1,2),(3,5),(10,2)], 9)`, with `9` out of
range, runs three iterations, entered with `cur_block_count` at `0`, `2` and
`7`; the update of the last one gives `9`. -/
theorem GetNthBlock_accumulator_invariant_witness :
    (GetNthBlock.loopTraced 9 [mkExtent 1 2, mkExtent 3 5, mkExtent 10 2] 0).2 = [0, 2, 7] ∧
      (7 ≤ 9 ∧ 7 = totalBlocks ([mkExtent 1 2, mkExtent 3 5, mkExtent 10 2].take 2) ∧
          (9 + (2 ^ 64 - 7 % 2 ^ 64)) % 2 ^ 64 + 7 = 9 ∧
          (∃ e, [mkExtent 1 2, mkExtent 3 5, mkExtent 10 2][2]? = some e ∧
            (¬ (9 + (2 ^ 64 - 7 % 2 ^ 64)) % 2 ^ 64 < e.num_blocks →
              7 + e.num_blocks ≤ 9 ∧ (7 + e.num_blocks) % 2 ^ 64 = 7 + e.num_blocks)) ∧
          ∀ next : Nat,
            (GetNthBlock.loopTraced 9 [mkExtent 1 2, mkExtent 3 5, mkExtent 10 2] 0).2[2 + 1]? =
                some next →
              ∃ e, [mkExtent 1 2, mkExtent 3 5, mkExtent 10 2][2]? = some e ∧
                next = 7 + e.num_blocks ∧ 7 + e.num_blocks ≤ 9) :=
  ⟨by decide,
    (GetNthBlock_accumulator_invariant [mkExtent 1 2, mkExtent 3 5, mkExtent 10 2] 9
      (by decide)).2.2 2 7 (by decide)⟩

/-! ## `NormalizeExtents` -/

theorem NormalizeExtents.scan_chain (k : Nat) (rest : List Extent) :
    ∀ current : Extent, ∃ c tl, NormalizeExtents.scan current rest = c :: tl ∧
      c.start_block = current.start_block ∧
      (c :: tl).Chain' (fun a b => a.start_block ≠ k → b.start_block ≠ k →
        ¬ (a.start_block + a.num_blocks ≥ b.start_block)) := by
  induction rest with
  | nil =>
    intro current
    exact ⟨current, [], rfl, rfl, List.chain'_singleton _⟩
  | cons next rest ih =>
    intro current
    by_cases hm : next.start_block ≤ current.start_block + current.num_blocks
    · obtain ⟨c, tl, hscan, hstart, hchain⟩ := ih
        (mkExtent current.start_block
          (max (current.start_block + current.num_blocks)
            (next.start_block + next.num_blocks) - current.start_block))
      refine ⟨c, tl, ?_, ?_, hchain⟩
      · rw [NormalizeExtents.scan, if_pos hm, hscan]
      · rw [hstart]
        exact Nat.mod_eq_of_lt current.start_lt
    · obtain ⟨c, tl, hscan, hstart, hchain⟩ := ih next
      refine ⟨current, c :: tl, ?_, rfl, ?_⟩
      · rw [NormalizeExtents.scan, if_neg hm, hscan]
      · refine List.Chain'.cons ?_ hchain
        intro _ _
        rw [hstart]
        omega

/-- C13: for every extent list `L`, in particular for every list sorted by
`start_block`, no two consecutive extents of `NormalizeExtents(L)` that are not
holes are adjacent or overlapping: none satisfy
`start_block(i) + num_blocks(i) >= start_block(i+1)`. -/
theorem NormalizeExtents_no_adjacent (k : Nat) (L : List Extent) :
    (NormalizeExtents L).Chain' (fun a b => a.start_block ≠ k → b.start_block ≠ k →
      ¬ (a.start_block + a.num_blocks ≥ b.start_block)) := by
  cases L with
  | nil => exact List.chain'_nil
  | cons first rest =>
    obtain ⟨c, tl, hscan, -, hchain⟩ := NormalizeExtents.scan_chain k rest first
    rw [NormalizeExtents, hscan]
    exact hchain

/-- Witness of C13, the scenario of the header and of the specification:
`[(1,2),(3,5),(10,2)]` is changed to `[(1,7),(10,2)]`, in which `1 + 7 < 10`. -/
theorem NormalizeExtents_no_adjacent_witness :
    NormalizeExtents [mkExtent 1 2, mkExtent 3 5, mkExtent 10 2] =
        [mkExtent 1 7, mkExtent 10 2] ∧
      (NormalizeExtents [mkExtent 1 2, mkExtent 3 5, mkExtent 10 2]).Chain'
        (fun a b => a.start_block ≠ 2 ^ 64 - 1 → b.start_block ≠ 2 ^ 64 - 1 →
          ¬ (a.start_block + a.num_blocks ≥ b.start_block)) :=
  ⟨by decide,
    NormalizeExtents_no_adjacent (2 ^ 64 - 1) [mkExtent 1 2, mkExtent 3 5, mkExtent 10 2]⟩

/-! ## `AppendBlockToExtents` -/

theorem specExpand_append (k : Nat) (A B : List Extent) :
    specExpand k (A ++ B) = specExpand k A ++ specExpand k B := by
  simp [specExpand]

theorem AppendBlockToExtents_step (k : Nat) (acc : List Extent) (b : Nat)
    (hacc : ∀ e ∈ acc, e.start_block ≠ k ∧ e.start_block + e.num_blocks ≤ 2 ^ 64 - 1)
    (hk : b ≠ k) (hb : b < 2 ^ 64 - 1) :
    (∀ e ∈ AppendBlockToExtents acc b,
        e.start_block ≠ k ∧ e.start_block + e.num_blocks ≤ 2 ^ 64 - 1) ∧
      specExpand k (AppendBlockToExtents acc b) = specExpand k acc ++ [b] := by
  have hnew : (mkExtent b 1).start_block = b ∧ (mkExtent b 1).num_blocks = 1 :=
    ⟨Nat.mod_eq_of_lt (by omega), rfl⟩
  have hnewExp : specExpand k [mkExtent b 1] = [b] := by
    simp [specExpand, specExpandExtent, hnew.1, hnew.2, hk]
  cases hlast : acc.getLast? with
  | none =>
    have hnil : acc = [] := List.getLast?_eq_none_iff.mp hlast
    subst hnil
    simp only [AppendBlockToExtents, List.getLast?_nil]
    refine ⟨fun e he => ?_, by rw [hnewExp]; rfl⟩
    rw [List.mem_singleton] at he
    subst he
    rw [hnew.1, hnew.2]
    exact ⟨hk, by omega⟩
  | some last =>
    have hsplit : acc.dropLast ++ [last] = acc :=
      List.dropLast_append_getLast? last (by rw [hlast]; rfl)
    have hmemlast : last ∈ acc := by
      rw [← hsplit]
      simp
    have hl := hacc last hmemlast
    simp only [AppendBlockToExtents, hlast]
    by_cases hext : b = last.start_block + last.num_blocks
    · rw [if_pos hext]
      have hs := last.start_lt
      have hgrown : (mkExtent last.start_block (last.num_blocks + 1)).start_block =
            last.start_block ∧
          (mkExtent last.start_block (last.num_blocks + 1)).num_blocks =
            last.num_blocks + 1 :=
        ⟨Nat.mod_eq_of_lt hs, Nat.mod_eq_of_lt (by omega)⟩
      refine ⟨fun e he => ?_, ?_⟩
      · rcases List.mem_append.mp he with he | he
        · exact hacc e (List.mem_of_mem_dropLast he)
        · rw [List.mem_singleton] at he
          subst he
          rw [hgrown.1, hgrown.2]
          exact ⟨hl.1, by omega⟩
      · have hacc2 : specExpand k acc =
            specExpand k acc.dropLast ++ List.range' last.start_block last.num_blocks := by
          conv_lhs => rw [← hsplit]
          rw [specExpand_append]
          simp [specExpand, specExpandExtent, hl.1]
        rw [specExpand_append, hacc2]
        simp only [specExpand, specExpandExtent, List.flatMap_cons, List.flatMap_nil,
          List.append_nil, hgrown.1, hgrown.2, if_neg hl.1, List.range'_concat, Nat.one_mul,
          List.append_assoc, hext]
    · rw [if_neg hext]
      refine ⟨fun e he => ?_, by rw [specExpand_append, hnewExp]⟩
      rcases List.mem_append.mp he with he | he
      · exact hacc e he
      · rw [List.mem_singleton] at he
        subst he
        rw [hnew.1, hnew.2]
        exact ⟨hk, by omega⟩

theorem AppendBlockToExtents_foldl (k : Nat) (blocks : List Nat) :
    ∀ acc : List Extent,
      (∀ e ∈ acc, e.start_block ≠ k ∧ e.start_block + e.num_blocks ≤ 2 ^ 64 - 1) →
      (∀ b ∈ blocks, b ≠ k ∧ b < 2 ^ 64 - 1) →
      (∀ e ∈ blocks.foldl AppendBlockToExtents acc,
          e.start_block ≠ k ∧ e.start_block + e.num_blocks ≤ 2 ^ 64 - 1) ∧
        specExpand k (blocks.foldl AppendBlockToExtents acc) = specExpand k acc ++ blocks := by
  induction blocks with
  | nil => intro acc hacc _; exact ⟨hacc, by simp⟩
  | cons b blocks ih =>
    intro acc hacc hb
    have hb0 := hb b (List.mem_cons_self _ _)
    obtain ⟨hinv, hexp⟩ := AppendBlockToExtents_step k acc b hacc hb0.1 hb0.2
    obtain ⟨hinv2, hexp2⟩ := ih (AppendBlockToExtents acc b) hinv
      (fun x hx => hb x (List.mem_cons_of_mem _ hx))
    refine ⟨hinv2, ?_⟩
    rw [List.foldl_cons, hexp2, hexp]
    simp

/-- C14, as amended: for every sequence of blocks, none of them `kSparseHole` or
`2^64 - 1`, appended one at a time with `AppendBlockToExtents` to an initially
empty list, `ExpandExtents` of the resulting list equals the literal sequence
of appended blocks (whether each block is the end of the current last extent or
starts a new extent). -/
theorem ExpandExtents_AppendBlockToExtents (k : Nat) (blocks : List Nat)
    (hb : ∀ b ∈ blocks, b ≠ k ∧ b < 2 ^ 64 - 1) :
    ExpandExtents k (blocks.foldl AppendBlockToExtents []) = blocks := by
  obtain ⟨hinv, hexp⟩ := AppendBlockToExtents_foldl k blocks []
    (fun e he => absurd he (List.not_mem_nil e)) hb
  have h := ExpandExtents.foldl_eq_spec_of_no_hole k _ [] hinv
  rw [ExpandExtents, h, List.nil_append, hexp]
  rfl

/-- Witness of C14 as amended: the blocks `1, 2, 3, 5, 6` give
`[(1,3), (5,2)]`, which expands to the same blocks. -/
theorem ExpandExtents_AppendBlockToExtents_witness :
    [1, 2, 3, 5, 6].foldl AppendBlockToExtents [] = [mkExtent 1 3, mkExtent 5 2] ∧
      ExpandExtents (2 ^ 64 - 1) ([1, 2, 3, 5, 6].foldl AppendBlockToExtents []) =
        [1, 2, 3, 5, 6] :=
  ⟨by decide, ExpandExtents_AppendBlockToExtents (2 ^ 64 - 1) [1, 2, 3, 5, 6] (by decide)⟩

/-- C14 as stated fails, with `kSparseHole` at its value `2^64 - 1`: block
`2^64 - 2` starts the extent `(2^64 - 2, 1)`, block `2^64 - 1` is the end of that
extent and extends it to `(2^64 - 2, 2)`, and the expansion of the result is
empty because the loop bound `start_block + num_blocks` wraps to `0`. -/
theorem ExpandExtents_AppendBlockToExtents_counterexample :
    [2 ^ 64 - 2].foldl AppendBlockToExtents [] = [mkExtent (2 ^ 64 - 2) 1] ∧
      2 ^ 64 - 1 = (mkExtent (2 ^ 64 - 2) 1).start_block +
        (mkExtent (2 ^ 64 - 2) 1).num_blocks ∧
      [2 ^ 64 - 2, 2 ^ 64 - 1].foldl AppendBlockToExtents [] = [mkExtent (2 ^ 64 - 2) 2] ∧
      ExpandExtents (2 ^ 64 - 1) ([2 ^ 64 - 2, 2 ^ 64 - 1].foldl AppendBlockToExtents []) =
        [] := by
  have h1 : (mkExtent (2 ^ 64 - 2) 2).start_block ≠ 2 ^ 64 - 1 := by decide
  have hl : [2 ^ 64 - 2, 2 ^ 64 - 1].foldl AppendBlockToExtents [] =
      [mkExtent (2 ^ 64 - 2) 2] := by decide
  refine ⟨by decide, by decide, hl, ?_⟩
  rw [hl, ExpandExtents_singleton_of_ne _ _ h1]
  decide

/-! ## `ExtentsSublist` -/

theorem take_drop_range' (s n a b : Nat) :
    ((List.range' s n).drop a).take b = List.range' (s + a) (min (n - a) b) := by
  apply List.ext_getElem
  · simp only [List.length_take, List.length_drop, List.length_range']
    omega
  · intro i h1 h2
    simp only [List.getElem_take, List.getElem_drop, List.getElem_range', Nat.one_mul]
    omega

theorem ExtentsSublist.walk_num_pos (block_offset block_count : Nat) (L : List Extent) :
    ∀ scanned emitted : Nat,
      ∀ e ∈ ExtentsSublist.walk block_offset block_count L scanned emitted,
        0 < e.num_blocks := by
  induction L with
  | nil => intro scanned emitted e he; simp [ExtentsSublist.walk] at he
  | cons x L ih =>
    intro scanned emitted e he
    rw [ExtentsSublist.walk] at he
    split at he
    · simp at he
    · split at he
      · exact ih _ _ e he
      · rename_i hcnt hskip
        rcases List.mem_cons.mp he with he | he
        · have hn := x.num_lt
          subst he
          show 0 < (min (x.num_blocks - (block_offset - scanned))
            (block_count - emitted)) % 2 ^ 64
          rw [Nat.mod_eq_of_lt (by omega)]
          omega
        · exact ih _ _ e he

theorem ExtentsSublist.walk_spec (k block_offset block_count : Nat) (L : List Extent) :
    ∀ scanned emitted : Nat,
      (∀ e ∈ L, e.start_block ≠ k ∧ e.start_block + e.num_blocks ≤ 2 ^ 64 - 1 ∧
        (k < e.start_block ∨ e.start_block + e.num_blocks ≤ k)) →
      (∀ e ∈ ExtentsSublist.walk block_offset block_count L scanned emitted,
          e.start_block ≠ k ∧ e.start_block + e.num_blocks ≤ 2 ^ 64 - 1) ∧
        specExpand k (ExtentsSublist.walk block_offset block_count L scanned emitted) =
          ((specExpand k L).drop (block_offset - scanned)).take (block_count - emitted) := by
  induction L with
  | nil =>
    intro scanned emitted _
    simp [ExtentsSublist.walk, specExpand]
  | cons x L ih =>
    intro scanned emitted hL
    have hx := hL x (List.mem_cons_self _ _)
    have hrest := fun e he => hL e (List.mem_cons_of_mem x he)
    have hspec : specExpand k (x :: L) =
        List.range' x.start_block x.num_blocks ++ specExpand k L := by
      simp [specExpand, specExpandExtent, hx.1]
    rw [ExtentsSublist.walk, hspec]
    split
    · rename_i hcnt
      have h0 : block_count - emitted = 0 := by omega
      rw [h0]
      simp [specExpand]
    · rename_i hcnt
      split
      · rename_i hskip
        obtain ⟨hinv, hexp⟩ := ih (scanned + x.num_blocks) emitted hrest
        refine ⟨hinv, ?_⟩
        have hd : (List.range' x.start_block x.num_blocks ++ specExpand k L).drop
              (block_offset - scanned) =
            (specExpand k L).drop (block_offset - (scanned + x.num_blocks)) := by
          rw [List.drop_append_eq_append_drop,
            List.drop_of_length_le (by simpa using hskip), List.nil_append,
            List.length_range']
          congr 1
          omega
        rw [hexp, hd]
      · rename_i hskip
        obtain ⟨hinv, hexp⟩ := ih (scanned + x.num_blocks)
          (emitted + min (x.num_blocks - (block_offset - scanned)) (block_count - emitted))
          hrest
        have hn := x.num_lt
        have hstart : (mkExtent (x.start_block + (block_offset - scanned))
              (min (x.num_blocks - (block_offset - scanned))
                (block_count - emitted))).start_block =
            x.start_block + (block_offset - scanned) := Nat.mod_eq_of_lt (by omega)
        have hnum : (mkExtent (x.start_block + (block_offset - scanned))
              (min (x.num_blocks - (block_offset - scanned))
                (block_count - emitted))).num_blocks =
            min (x.num_blocks - (block_offset - scanned)) (block_count - emitted) :=
          Nat.mod_eq_of_lt (by omega)
        have hne : x.start_block + (block_offset - scanned) ≠ k := by omega
        refine ⟨fun e he => ?_, ?_⟩
        · rcases List.mem_cons.mp he with he | he
          · subst he
            rw [hstart, hnum]
            exact ⟨hne, by omega⟩
          · exact hinv e he
        · have hzero : block_offset - (scanned + x.num_blocks) = 0 := by omega
          rw [hzero, List.drop_zero] at hexp
          rw [List.drop_append_of_le_length (by simp only [List.length_range']; omega),
            List.take_append_eq_append_take, take_drop_range', List.length_drop,
            List.length_range']
          simp only [specExpand, List.flatMap_cons] at hexp ⊢
          rw [hexp, specExpandExtent, hstart, hnum, if_neg hne]
          congr 2
          omega

/-- C12, as amended: every extent that `ExtentsSublist` returns has
`num_blocks > 0`; and for every extent list `L` in which no extent is a sparse
hole, wraps (`start_block + num_blocks <= 2^64 - 1`) or covers the block number
`kSparseHole`, and all `block_offset` and `block_count`,
`ExpandExtents(ExtentsSublist(L, block_offset, block_count))` is the slice of
`ExpandExtents(L)` that skips the first `block_offset` blocks and then takes
`block_count` blocks, clipped to the available length. -/
theorem ExpandExtents_ExtentsSublist (k : Nat) (L : List Extent)
    (block_offset block_count : Nat) :
    (∀ e ∈ ExtentsSublist L block_offset block_count, 0 < e.num_blocks) ∧
      ((∀ e ∈ L, e.start_block ≠ k ∧ e.start_block + e.num_blocks ≤ 2 ^ 64 - 1 ∧
          (k < e.start_block ∨ e.start_block + e.num_blocks ≤ k)) →
        ExpandExtents k (ExtentsSublist L block_offset block_count) =
          ((ExpandExtents k L).drop block_offset).take block_count) := by
  refine ⟨ExtentsSublist.walk_num_pos block_offset block_count L 0 0, fun hL => ?_⟩
  obtain ⟨hinv, hexp⟩ := ExtentsSublist.walk_spec k block_offset block_count L 0 0 hL
  have h1 := ExpandExtents.foldl_eq_spec_of_no_hole k _ [] hinv
  have h2 := ExpandExtents.foldl_eq_spec_of_no_hole k L []
    (fun e he => ⟨(hL e he).1, (hL e he).2.1⟩)
  rw [ExpandExtents, ExpandExtents, ExtentsSublist, h1, h2, List.nil_append, List.nil_append,
    hexp]
  rfl

/-- Witness of C12 as amended, the scenario of the specification:
`ExtentsSublist([(1,2),(3,5),(10,2)], 2, 4) == [(3,4)]`, which expands to the
blocks `3, 4, 5, 6`. -/
theorem ExpandExtents_ExtentsSublist_witness :
    ExtentsSublist [mkExtent 1 2, mkExtent 3 5, mkExtent 10 2] 2 4 = [mkExtent 3 4] ∧
      ExpandExtents (2 ^ 64 - 1)
          (ExtentsSublist [mkExtent 1 2, mkExtent 3 5, mkExtent 10 2] 2 4) =
        ((ExpandExtents (2 ^ 64 - 1) [mkExtent 1 2, mkExtent 3 5, mkExtent 10 2]).drop 2).take
          4 :=
  ⟨by decide,
    (ExpandExtents_ExtentsSublist (2 ^ 64 - 1) [mkExtent 1 2, mkExtent 3 5, mkExtent 10 2]
      2 4).2 (by decide)⟩

/-- C12 as stated fails, with `kSparseHole` at its value `2^64 - 1`.  For
`L = [(0,1), (kSparseHole, 2^64 - 1)]` the expansion of `L` is empty, because the
size handed to `resize` wraps, and so is each of its slices, while
`ExtentsSublist(L, 0, 1)` is `[(0,1)]`, which expands to `[0]`.  For the hole
`[(kSparseHole, 3)]` the window of one block at offset `1` is the extent trimmed
to start at `kSparseHole + 1`, which wraps to `(0,1)` and expands to `[0]`, while
the slice of the expansion is `[kSparseHole]`. -/
theorem ExpandExtents_ExtentsSublist_counterexample :
    (ExpandExtents (2 ^ 64 - 1)
          (ExtentsSublist [mkExtent 0 1, mkExtent (2 ^ 64 - 1) (2 ^ 64 - 1)] 0 1) = [0] ∧
        ((ExpandExtents (2 ^ 64 - 1)
          [mkExtent 0 1, mkExtent (2 ^ 64 - 1) (2 ^ 64 - 1)]).drop 0).take 1 = []) ∧
      (ExpandExtents (2 ^ 64 - 1) (ExtentsSublist [mkExtent (2 ^ 64 - 1) 3] 1 1) = [0] ∧
        ((ExpandExtents (2 ^ 64 - 1) [mkExtent (2 ^ 64 - 1) 3]).drop 1).take 1 =
          [2 ^ 64 - 1]) := by
  have h1 : (mkExtent 0 1).start_block ≠ 2 ^ 64 - 1 := by decide
  have h2 : (mkExtent (2 ^ 64 - 1) (2 ^ 64 - 1)).start_block = 2 ^ 64 - 1 := by decide
  have h3 : (mkExtent (2 ^ 64 - 1) 3).start_block = 2 ^ 64 - 1 := by decide
  have hs1 : ExtentsSublist [mkExtent 0 1, mkExtent (2 ^ 64 - 1) (2 ^ 64 - 1)] 0 1 =
      [mkExtent 0 1] := by decide
  have hs2 : ExtentsSublist [mkExtent (2 ^ 64 - 1) 3] 1 1 = [mkExtent 0 1] := by decide
  have hA : ExpandExtents (2 ^ 64 - 1) [mkExtent 0 1] = [0] := by
    rw [ExpandExtents_singleton_of_ne _ _ h1]
    decide
  refine ⟨⟨by rw [hs1, hA], ?_⟩, ⟨by rw [hs2, hA], ?_⟩⟩
  · rw [ExpandExtents, List.foldl_cons, List.foldl_cons, List.foldl_nil,
      ExpandExtents.body_of_ne _ _ _ h1, ExpandExtents.body, if_pos h2]
    decide
  · rw [ExpandExtents, List.foldl_cons, List.foldl_nil, ExpandExtents.body, if_pos h3]
    decide

/-! ## `ExpandExtents` with the exceptions of `std::vector` -/

theorem ExpandExtents.loop_checked_eq (cap : Nat) (e : Extent) (d : Nat) :
    ∀ (block : Nat) (ret : List Nat),
      (e.start_block + e.num_blocks) % 2 ^ 64 - block = d →
      ExpandExtents.loop_checked cap e block ret =
        if d = 0 ∨ ret.length + d ≤ cap then some (ret ++ List.range' block d) else none := by
  induction d with
  | zero =>
    intro block ret h
    rw [ExpandExtents.loop_checked, if_neg (by omega)]
    simp
  | succ d ih =>
    intro block ret h
    have hE := Nat.mod_lt (e.start_block + e.num_blocks) (show 0 < 2 ^ 64 by decide)
    have hb : (block + 1) % 2 ^ 64 = block + 1 := Nat.mod_eq_of_lt (by omega)
    rw [ExpandExtents.loop_checked, if_pos (by omega), hb, vector_push_back_checked]
    by_cases hcap : ret.length < cap
    · have hlen : (ret ++ [block]).length = ret.length + 1 := by simp
      rw [if_pos hcap]
      simp only
      rw [ih (block + 1) (ret ++ [block]) (by omega), List.range'_succ, hlen]
      by_cases hfit : ret.length + (d + 1) ≤ cap
      · rw [if_pos (Or.inr hfit), if_pos (Or.inr (by omega))]
        simp
      · rw [if_neg (by omega), if_neg (by omega)]
    · rw [if_neg hcap, if_neg (by omega)]

theorem ExpandExtents.part_length_le (k : Nat) (e : Extent) :
    (ExpandExtents.part k e).length ≤ e.num_blocks := by
  have hmod := Nat.mod_le (e.start_block + e.num_blocks) (2 ^ 64)
  unfold ExpandExtents.part
  split
  · simp
  · simp only [List.length_range']
    omega

theorem ExpandExtents.part_eq_spec (k : Nat) (e : Extent)
    (hne : e.start_block ≠ k → e.start_block + e.num_blocks ≤ 2 ^ 64 - 1) :
    ExpandExtents.part k e = specExpandExtent k e := by
  unfold ExpandExtents.part specExpandExtent
  split
  · rfl
  · rename_i h
    have hsum := hne h
    rw [Nat.mod_eq_of_lt (by omega)]
    congr 1
    omega

/-- One pass of the outer loop, when the size handed to `resize` does not wrap:
it adds the part of the extent if the vector can take it, and throws
otherwise. -/
theorem ExpandExtents.body_checked_eq (cap k : Nat) (ret : List Nat) (e : Extent)
    (h : e.start_block = k → ret.length + e.num_blocks ≤ 2 ^ 64 - 1) :
    ExpandExtents.body_checked cap k ret e =
      if (ExpandExtents.part k e).length = 0 ∨
          ret.length + (ExpandExtents.part k e).length ≤ cap then
        some (ret ++ ExpandExtents.part k e)
      else none := by
  by_cases hk : e.start_block = k
  · have hb := h hk
    have hmod : (ret.length + e.num_blocks) % 2 ^ 64 = ret.length + e.num_blocks :=
      Nat.mod_eq_of_lt (by omega)
    simp only [ExpandExtents.body_checked, ExpandExtents.part, if_pos hk, hmod,
      vector_resize_checked, List.length_replicate]
    by_cases h0 : e.num_blocks = 0
    · simp [h0]
    · rw [if_neg (by omega)]
      by_cases hfit : ret.length + e.num_blocks ≤ cap
      · rw [if_pos hfit, if_pos (Or.inr hfit)]
        congr 3
        omega
      · rw [if_neg hfit, if_neg (by omega)]
  · simp only [ExpandExtents.body_checked, ExpandExtents.part, if_neg hk,
      List.length_range']
    exact ExpandExtents.loop_checked_eq cap e _ _ ret rfl

theorem ExpandExtents.checked_from_eq (cap k : Nat) (L : List Extent) :
    ∀ ret : List Nat,
      ((∀ e ∈ L, e.start_block ≠ k) ∨ ret.length + totalBlocks L ≤ 2 ^ 64 - 1) →
      ExpandExtents.checked_from cap k L ret =
        if (L.flatMap (ExpandExtents.part k)).length = 0 ∨
            ret.length + (L.flatMap (ExpandExtents.part k)).length ≤ cap then
          some (ret ++ L.flatMap (ExpandExtents.part k))
        else none := by
  induction L with
  | nil => intro ret _; simp [ExpandExtents.checked_from]
  | cons e L ih =>
    intro ret h
    have hpart := ExpandExtents.part_length_le k e
    have hbody := ExpandExtents.body_checked_eq cap k ret e (by
      intro hk
      rcases h with h | h
      · exact absurd hk (h e (List.mem_cons_self _ _))
      · simp only [totalBlocks, List.map_cons, List.sum_cons] at h
        omega)
    have hrest : (∀ x ∈ L, x.start_block ≠ k) ∨
        (ret ++ ExpandExtents.part k e).length + totalBlocks L ≤ 2 ^ 64 - 1 := by
      rcases h with h | h
      · exact Or.inl (fun x hx => h x (List.mem_cons_of_mem _ hx))
      · right
        simp only [totalBlocks, List.map_cons, List.sum_cons, List.length_append] at h ⊢
        omega
    rw [ExpandExtents.checked_from, hbody]
    simp only [List.flatMap_cons, List.length_append]
    by_cases hstep : (ExpandExtents.part k e).length = 0 ∨
        ret.length + (ExpandExtents.part k e).length ≤ cap
    · rw [if_pos hstep]
      simp only
      rw [ih _ hrest]
      simp only [List.length_append, List.append_assoc]
      by_cases hall : (L.flatMap (ExpandExtents.part k)).length = 0 ∨
          ret.length + (ExpandExtents.part k e).length +
            (L.flatMap (ExpandExtents.part k)).length ≤ cap
      · rw [if_pos hall, if_pos (by omega)]
      · rw [if_neg hall, if_neg (by omega)]
    · rw [if_neg hstep]
      simp only
      rw [if_neg (by omega)]

theorem ExpandExtents.body_checked_some (cap k : Nat) (ret s : List Nat) (e : Extent)
    (h : ExpandExtents.body_checked cap k ret e = some s) :
    s = ExpandExtents.body k ret e ∧ (ret.length ≤ cap → s.length ≤ cap) := by
  by_cases hk : e.start_block = k
  · simp only [ExpandExtents.body_checked, if_pos hk, vector_resize_checked] at h
    simp only [ExpandExtents.body, if_pos hk, vector_resize]
    split at h
    · rename_i hle
      injection h with h
      subst h
      rw [if_pos hle]
      refine ⟨rfl, fun hcap => ?_⟩
      simp only [List.length_take]
      omega
    · rename_i hle
      split at h
      · rename_i hfit
        injection h with h
        subst h
        rw [if_neg hle]
        refine ⟨rfl, fun _ => ?_⟩
        simp only [List.length_append, List.length_replicate]
        omega
      · cases h
  · simp only [ExpandExtents.body_checked, if_neg hk] at h
    rw [ExpandExtents.loop_checked_eq cap e _ _ ret rfl] at h
    rw [ExpandExtents.body_of_ne k ret e hk]
    split at h
    · rename_i hfit
      injection h with h
      subst h
      refine ⟨rfl, fun hcap => ?_⟩
      simp only [List.length_append, List.length_range']
      omega
    · cases h

/-- Whenever the call returns, it returns what `ExpandExtents` gives, and a
vector of no more than `capacity` elements. -/
theorem ExpandExtents.checked_from_some (cap k : Nat) (L : List Extent) :
    ∀ ret s : List Nat, ExpandExtents.checked_from cap k L ret = some s →
      s = L.foldl (ExpandExtents.body k) ret ∧ (ret.length ≤ cap → s.length ≤ cap) := by
  induction L with
  | nil =>
    intro ret s h
    simp only [ExpandExtents.checked_from] at h
    injection h with h
    subst h
    exact ⟨rfl, fun hc => hc⟩
  | cons e L ih =>
    intro ret s h
    rw [ExpandExtents.checked_from] at h
    cases hb : ExpandExtents.body_checked cap k ret e with
    | none => simp [hb] at h
    | some grown =>
      simp only [hb] at h
      obtain ⟨h1, h2⟩ := ExpandExtents.body_checked_some cap k ret grown e hb
      obtain ⟨h3, h4⟩ := ih grown s h
      refine ⟨?_, fun hc => h4 (h2 hc)⟩
      rw [List.foldl_cons, ← h1]
      exact h3

theorem ExpandExtents.checked_from_append (cap k : Nat) (A B : List Extent) :
    ∀ ret : List Nat,
      ExpandExtents.checked_from cap k (A ++ B) ret =
        (ExpandExtents.checked_from cap k A ret).bind (ExpandExtents.checked_from cap k B) := by
  induction A with
  | nil => intro ret; rfl
  | cons e A ih =>
    intro ret
    rw [List.cons_append, ExpandExtents.checked_from, ExpandExtents.checked_from]
    cases ExpandExtents.body_checked cap k ret e with
    | none => rfl
    | some grown => exact ih grown

/-- The result of the call on a list whose extents other than holes do not wrap
and whose total block count is at most `2^64 - 1`: the expansion in the words
of the specification when the vector can take it, an exception otherwise. -/
theorem ExpandExtents.checked_eq_spec (cap k : Nat) (L : List Extent)
    (hne : ∀ e ∈ L, e.start_block ≠ k → e.start_block + e.num_blocks ≤ 2 ^ 64 - 1)
    (htot : totalBlocks L ≤ 2 ^ 64 - 1) :
    ExpandExtents.checked cap k L =
      if totalBlocks L ≤ cap then some (specExpand k L) else none := by
  have hZ : L.flatMap (ExpandExtents.part k) = specExpand k L := by
    rw [specExpand]
    exact List.flatMap_congr (fun e he => ExpandExtents.part_eq_spec k e (hne e he))
  have hlen := length_specExpand k L
  rw [ExpandExtents.checked, ExpandExtents.checked_from_eq cap k L []
    (Or.inr (by simpa using htot)), hZ, hlen, List.nil_append, List.length_nil]
  by_cases hfit : totalBlocks L ≤ cap
  · rw [if_pos hfit, if_pos (Or.inr (by omega))]
  · rw [if_neg hfit, if_neg (by omega)]

/-! ## Properties of `ExpandExtents` -/

/-- C2, as amended: for every extent list `L` in which each extent other than a
hole satisfies `start_block + num_blocks <= 2^64 - 1` and whose total block
count is at most `2^64 - 1`: when the result vector can take that many
elements, `ExpandExtents(L)` returns a vector whose length is the sum of
`num_blocks` over `L`; when it cannot, the call throws and returns nothing. -/
theorem ExpandExtents_length (capacity k : Nat) (L : List Extent)
    (hne : ∀ e ∈ L, e.start_block ≠ k → e.start_block + e.num_blocks ≤ 2 ^ 64 - 1)
    (htot : totalBlocks L ≤ 2 ^ 64 - 1) :
    (totalBlocks L ≤ capacity →
        ∃ ret, ExpandExtents.checked capacity k L = some ret ∧
          ret.length = totalBlocks L) ∧
      (capacity < totalBlocks L → ExpandExtents.checked capacity k L = none) := by
  have h := ExpandExtents.checked_eq_spec capacity k L hne htot
  refine ⟨fun hfit => ?_, fun hbig => ?_⟩
  · rw [if_pos hfit] at h
    exact ⟨specExpand k L, h, length_specExpand k L⟩
  · rw [if_neg (by omega)] at h
    exact h

/-- Witness of C2 as amended, at the list `[(1,2),(3,5),(10,2)]` with the
sentinel `2^64 - 1` and room for `2^60 - 1` elements: nine blocks. -/
theorem ExpandExtents_length_witness :
    ∃ ret, ExpandExtents.checked (2 ^ 60 - 1) (2 ^ 64 - 1)
        [mkExtent 1 2, mkExtent 3 5, mkExtent 10 2] = some ret ∧ ret.length = 9 :=
  (ExpandExtents_length (2 ^ 60 - 1) (2 ^ 64 - 1) [mkExtent 1 2, mkExtent 3 5, mkExtent 10 2]
    (by decide) (by decide)).1 (by decide)

/-- C2 as stated fails, with `kSparseHole` at its value `2^64 - 1` and room for
`2^60 - 1` elements.  The extent `(2^64 - 2, 5)` is not a hole, its `uint64`
bound wraps to `3`, and the call returns the empty vector although
`num_blocks` is `5`.  In `[(0,1), (kSparseHole, 2^64 - 1)]` the size handed to
`resize` wraps to `0` and the call returns the empty vector although the block
counts add up to `2^64`. -/
theorem ExpandExtents_length_counterexample :
    (ExpandExtents.checked (2 ^ 60 - 1) (2 ^ 64 - 1) [mkExtent (2 ^ 64 - 2) 5] = some [] ∧
        (ExpandExtents (2 ^ 64 - 1) [mkExtent (2 ^ 64 - 2) 5]).length = 0 ∧
        totalBlocks [mkExtent (2 ^ 64 - 2) 5] = 5) ∧
      (ExpandExtents.checked (2 ^ 60 - 1) (2 ^ 64 - 1)
          [mkExtent 0 1, mkExtent (2 ^ 64 - 1) (2 ^ 64 - 1)] = some [] ∧
        (ExpandExtents (2 ^ 64 - 1)
          [mkExtent 0 1, mkExtent (2 ^ 64 - 1) (2 ^ 64 - 1)]).length = 0 ∧
        totalBlocks [mkExtent 0 1, mkExtent (2 ^ 64 - 1) (2 ^ 64 - 1)] = 2 ^ 64) := by
  have h0 : (mkExtent (2 ^ 64 - 2) 5).start_block ≠ 2 ^ 64 - 1 := by decide
  have h1 : (mkExtent 0 1).start_block ≠ 2 ^ 64 - 1 := by decide
  have h2 : (mkExtent (2 ^ 64 - 1) (2 ^ 64 - 1)).start_block = 2 ^ 64 - 1 := by decide
  refine ⟨⟨?_, ?_, by decide⟩, ⟨?_, ?_, by decide⟩⟩
  · rw [ExpandExtents.checked, ExpandExtents.checked_from,
      ExpandExtents.body_checked_eq _ _ _ _ (fun h => absurd h h0)]
    decide
  · rw [ExpandExtents, List.foldl_cons, List.foldl_nil, ExpandExtents.body_of_ne _ _ _ h0]
    decide
  · rw [ExpandExtents.checked, ExpandExtents.checked_from,
      ExpandExtents.body_checked_eq _ _ _ _ (fun h => absurd h h1)]
    decide
  · rw [ExpandExtents, List.foldl_cons, List.foldl_cons, List.foldl_nil,
      ExpandExtents.body_of_ne _ _ _ h1, ExpandExtents.body, if_pos h2]
    decide

/-- C3, as amended: for every extent list `L` in which each extent other than a
hole satisfies `start_block + num_blocks <= 2^64 - 1` and whose total block
count is at most `2^64 - 1`: when the result vector can take that many
elements, `ExpandExtents(L)` returns the concatenation, over the extents in
order, of `num_blocks` copies of `kSparseHole` for a hole and of the ascending
run `start_block, ..., start_block + num_blocks - 1` otherwise; when it cannot,
the call throws and returns nothing. -/
theorem ExpandExtents_eq_specExpand (capacity k : Nat) (L : List Extent)
    (hne : ∀ e ∈ L, e.start_block ≠ k → e.start_block + e.num_blocks ≤ 2 ^ 64 - 1)
    (htot : totalBlocks L ≤ 2 ^ 64 - 1) :
    ExpandExtents.checked capacity k L =
      if totalBlocks L ≤ capacity then some (specExpand k L) else none :=
  ExpandExtents.checked_eq_spec capacity k L hne htot

/-- Witness of C3 as amended, the scenario of the specification:
`ExpandExtents([(1,2),(3,5),(10,2)]) == [1,2,3,4,5,6,7,10,11]`. -/
theorem ExpandExtents_eq_specExpand_witness :
    ExpandExtents.checked (2 ^ 60 - 1) (2 ^ 64 - 1)
        [mkExtent 1 2, mkExtent 3 5, mkExtent 10 2] =
      some [1, 2, 3, 4, 5, 6, 7, 10, 11] :=
  (ExpandExtents_eq_specExpand (2 ^ 60 - 1) (2 ^ 64 - 1)
    [mkExtent 1 2, mkExtent 3 5, mkExtent 10 2] (by decide) (by decide)).trans (by decide)

/-- C3 as stated fails: in `[(0,1), (kSparseHole, 2^64 - 1)]` the only extent
that is not a hole satisfies the bound, yet at the hole the new size
`ret.size() + num_blocks` is `1 + (2^64 - 1)`, which wraps to `0`, and `resize`
empties the vector: the call returns the empty vector, where the claimed value
starts with block `0`. -/
theorem ExpandExtents_eq_specExpand_counterexample :
    (∀ e ∈ [mkExtent 0 1, mkExtent (2 ^ 64 - 1) (2 ^ 64 - 1)],
        e.start_block ≠ 2 ^ 64 - 1 → e.start_block + e.num_blocks ≤ 2 ^ 64 - 1) ∧
      ExpandExtents.checked (2 ^ 60 - 1) (2 ^ 64 - 1)
        [mkExtent 0 1, mkExtent (2 ^ 64 - 1) (2 ^ 64 - 1)] = some [] ∧
      ExpandExtents (2 ^ 64 - 1) [mkExtent 0 1, mkExtent (2 ^ 64 - 1) (2 ^ 64 - 1)] = [] ∧
      (specExpand (2 ^ 64 - 1) [mkExtent 0 1, mkExtent (2 ^ 64 - 1) (2 ^ 64 - 1)]).head? =
        some 0 := by
  have h1 : (mkExtent 0 1).start_block ≠ 2 ^ 64 - 1 := by decide
  have h2 : (mkExtent (2 ^ 64 - 1) (2 ^ 64 - 1)).start_block = 2 ^ 64 - 1 := by decide
  refine ⟨by decide, ?_, ?_, ?_⟩
  · rw [ExpandExtents.checked, ExpandExtents.checked_from,
      ExpandExtents.body_checked_eq _ _ _ _ (fun h => absurd h h1)]
    decide
  · rw [ExpandExtents, List.foldl_cons, List.foldl_cons, List.foldl_nil,
      ExpandExtents.body_of_ne _ _ _ h1, ExpandExtents.body, if_pos h2]
    decide
  · rw [specExpand, List.flatMap_cons, specExpandExtent, if_neg h1]
    rfl

/-! ## `ExpandExtents` and concatenation -/

/-- C20, as amended: `ExpandExtents([])` is empty and, for all extent lists `A`
and `B` such that `B` has no sparse-hole extent or the total block count of
`A ++ B` is at most `2^64 - 1`, `ExpandExtents(A ++ B)` returns exactly when
`ExpandExtents(A)` and `ExpandExtents(B)` return and the result vector can take
their elements together, and then
`ExpandExtents(A ++ B) == ExpandExtents(A) ++ ExpandExtents(B)`. -/
theorem ExpandExtents_append (capacity k : Nat) (A B : List Extent)
    (h : (∀ e ∈ B, e.start_block ≠ k) ∨ totalBlocks (A ++ B) ≤ 2 ^ 64 - 1) :
    ExpandExtents.checked capacity k [] = some [] ∧
      ExpandExtents.checked capacity k (A ++ B) =
        (ExpandExtents.checked capacity k A).bind fun a =>
          (ExpandExtents.checked capacity k B).bind fun b =>
            if a.length + b.length ≤ capacity then some (a ++ b) else none := by
  refine ⟨rfl, ?_⟩
  rw [ExpandExtents.checked, ExpandExtents.checked_from_append, ExpandExtents.checked,
    ExpandExtents.checked]
  cases hA : ExpandExtents.checked_from capacity k A [] with
  | none => rfl
  | some a =>
    obtain ⟨haeq, halen⟩ := ExpandExtents.checked_from_some capacity k A [] a hA
    have hacap : a.length ≤ capacity := halen (Nat.zero_le _)
    have hatot : a.length ≤ totalBlocks A := by
      have := ExpandExtents.length_le k A []
      rw [← haeq] at this
      simpa using this
    have hBa := ExpandExtents.checked_from_eq capacity k B a (by
      rcases h with h | h
      · exact Or.inl h
      · right
        rw [totalBlocks_append] at h
        omega)
    have hB0 := ExpandExtents.checked_from_eq capacity k B [] (by
      rcases h with h | h
      · exact Or.inl h
      · right
        rw [totalBlocks_append] at h
        simp only [List.length_nil]
        omega)
    show ExpandExtents.checked_from capacity k B a =
      (ExpandExtents.checked_from capacity k B []).bind fun b =>
        if a.length + b.length ≤ capacity then some (a ++ b) else none
    rw [hBa, hB0, List.nil_append, List.length_nil, Nat.zero_add]
    generalize B.flatMap (ExpandExtents.part k) = Z
    by_cases hfit : a.length + Z.length ≤ capacity
    · rw [if_pos (Or.inr hfit), if_pos (Or.inr (by omega)), Option.some_bind, if_pos hfit]
    · by_cases hz : Z.length = 0
      · have hnil : Z = [] := List.length_eq_zero.mp hz
        subst hnil
        simp only [List.length_nil, Nat.add_zero] at hfit
        omega
      · rw [if_neg (by omega)]
        by_cases hb : Z.length ≤ capacity
        · rw [if_pos (Or.inr hb), Option.some_bind, if_neg hfit]
        · rw [if_neg (by omega)]
          rfl

/-- Witness of C20 as amended: `[(1,2)] ++ [(3,5),(10,2)]` with the sentinel
`2^64 - 1` and room for `2^60 - 1` elements. -/
theorem ExpandExtents_append_witness :
    ExpandExtents.checked (2 ^ 60 - 1) (2 ^ 64 - 1)
        ([mkExtent 1 2] ++ [mkExtent 3 5, mkExtent 10 2]) =
      (ExpandExtents.checked (2 ^ 60 - 1) (2 ^ 64 - 1) [mkExtent 1 2]).bind fun a =>
        (ExpandExtents.checked (2 ^ 60 - 1) (2 ^ 64 - 1)
            [mkExtent 3 5, mkExtent 10 2]).bind fun b =>
          if a.length + b.length ≤ 2 ^ 60 - 1 then some (a ++ b) else none :=
  (ExpandExtents_append (2 ^ 60 - 1) (2 ^ 64 - 1) [mkExtent 1 2]
    [mkExtent 3 5, mkExtent 10 2] (Or.inl (by decide))).2

/-- C20 as stated fails, with `kSparseHole` at its value `2^64 - 1` and room for
`2^60 - 1` elements: for `A = [(0,1)]` and `B = [(kSparseHole, 2^64 - 1)]` the
call on `A ++ B` returns the empty vector, because the size `1 + (2^64 - 1)`
handed to `resize` wraps to `0`, while the call on `A` returns `[0]`, to which
no list can be appended to give the empty one, and the call on `B` throws. -/
theorem ExpandExtents_append_counterexample :
    ExpandExtents.checked (2 ^ 60 - 1) (2 ^ 64 - 1)
        ([mkExtent 0 1] ++ [mkExtent (2 ^ 64 - 1) (2 ^ 64 - 1)]) = some [] ∧
      ExpandExtents.checked (2 ^ 60 - 1) (2 ^ 64 - 1) [mkExtent 0 1] = some [0] ∧
      ExpandExtents.checked (2 ^ 60 - 1) (2 ^ 64 - 1)
        [mkExtent (2 ^ 64 - 1) (2 ^ 64 - 1)] = none ∧
      ExpandExtents (2 ^ 64 - 1) ([mkExtent 0 1] ++ [mkExtent (2 ^ 64 - 1) (2 ^ 64 - 1)]) = [] ∧
      ExpandExtents (2 ^ 64 - 1) [mkExtent 0 1] ++
          ExpandExtents (2 ^ 64 - 1) [mkExtent (2 ^ 64 - 1) (2 ^ 64 - 1)] ≠ [] := by
  have h1 : (mkExtent 0 1).start_block ≠ 2 ^ 64 - 1 := by decide
  have h2 : (mkExtent (2 ^ 64 - 1) (2 ^ 64 - 1)).start_block = 2 ^ 64 - 1 := by decide
  have hA : ExpandExtents (2 ^ 64 - 1) [mkExtent 0 1] = [0] := by
    rw [ExpandExtents_singleton_of_ne _ _ h1]
    decide
  refine ⟨?_, ?_, ?_, ?_, ?_⟩
  · rw [List.singleton_append, ExpandExtents.checked, ExpandExtents.checked_from,
      ExpandExtents.body_checked_eq _ _ _ _ (fun h => absurd h h1)]
    decide
  · rw [ExpandExtents.checked, ExpandExtents.checked_from,
      ExpandExtents.body_checked_eq _ _ _ _ (fun h => absurd h h1)]
    decide
  · rw [ExpandExtents.checked, ExpandExtents.checked_from, ExpandExtents.body_checked,
      if_pos h2]
    decide
  · rw [List.singleton_append, ExpandExtents, List.foldl_cons, List.foldl_cons,
      List.foldl_nil, ExpandExtents.body_of_ne _ _ _ h1, ExpandExtents.body, if_pos h2]
    decide
  · rw [hA]
    exact List.cons_ne_nil _ _

end chromeos_update_engine
